import Mathlib

/-
Verification of the publish-quartz preprocessor (Rust) against its
natural-language specification.

This file shallowly embeds the parts of the source relevant to the frozen
claims: the page index data model (`src/preprocessor/src/page.rs`), the link
resolver and content rewrites (`src/preprocessor/src/content.rs`), and the
query engine (`src/preprocessor/src/query.rs`).  Rust strings are modelled as
Lean `String` manipulated through their character lists; lowercasing is
modelled per character (`Char.toLower`, ASCII), byte lengths via UTF-8 char
sizes, and Rust's `HashMap` as an association list with unique keys.
Recursive string scanners that consume a variable number of characters per
step take an explicit fuel argument (the source loops terminate because each
step consumes input; fuel is always instantiated with the input length).
-/

namespace PQ

/-! ## String helpers (models of the Rust `str` operations used by the code) -/

/-- Model of Rust `str::trim_start` (whitespace = space, tab, CR, LF). -/
def trimLChars (cs : List Char) : List Char := cs.dropWhile Char.isWhitespace

/-- Model of Rust `str::trim_end`. -/
def trimRChars (cs : List Char) : List Char := (cs.reverse.dropWhile Char.isWhitespace).reverse

/-- Model of Rust `str::trim`. -/
def rustTrim (s : String) : String := String.mk (trimRChars (trimLChars s.data))

/-- Model of Rust `str::trim_start` on `String`. -/
def trimStartStr (s : String) : String := String.mk (trimLChars s.data)

/-- Model of Rust `str::to_lowercase` (per-character, ASCII range). -/
def lowerStr (s : String) : String := String.mk (s.data.map Char.toLower)

/-- Model of Rust `str::to_uppercase` (per-character, ASCII range). -/
def upperStr (s : String) : String := String.mk (s.data.map Char.toUpper)

/-- Model of `.replace(' ', "-").replace('_', "-")` from `find_best_page_match`. -/
def dashNorm (s : String) : String :=
  String.mk (s.data.map (fun c => if c = ' ' || c = '_' then '-' else c))

/-- Model of `.replace('-', " ").replace('_', " ")` from `find_best_page_match`. -/
def spaceNorm (s : String) : String :=
  String.mk (s.data.map (fun c => if c = '-' || c = '_' then ' ' else c))

/-- Model of Rust `str::starts_with` for a string pattern. -/
def strStarts (s p : String) : Bool := p.data.isPrefixOf s.data

/-- Model of Rust `str::ends_with` for a string pattern. -/
def strEnds (s p : String) : Bool := p.data.isSuffixOf s.data

/-- Model of Rust `str::starts_with` for a char pattern. -/
def strStartsChar (s : String) (c : Char) : Bool := s.data.head? == some c

/-- Model of Rust `str::ends_with` for a char pattern. -/
def strEndsChar (s : String) (c : Char) : Bool := s.data.getLast? == some c

/-- Model of Rust `str::contains` for a string pattern (substring search). -/
def containsSub (hay needle : String) : Bool :=
  hay.data.tails.any (fun t => needle.data.isPrefixOf t)

/-- Model of Rust `.matches(c).count()`. -/
def countChar (s : String) (c : Char) : Nat := s.data.count c

/-- Drop the first `n` characters (models ASCII byte slicing `&s[n..]` where
the dropped prefix is ASCII, so bytes and chars coincide). -/
def strDrop (s : String) (n : Nat) : String := String.mk (s.data.drop n)

/-- Model of Rust `str::len` (UTF-8 byte length). -/
def byteLen (s : String) : Nat := s.data.foldl (fun n c => n + c.utf8Size) 0

/-- Model of Rust `str::strip_prefix`: `some` of the rest on success. -/
def stripPre (s p : String) : Option String :=
  if strStarts s p then some (strDrop s p.data.length) else none

/-- Model of byte slicing `&s[..n]`: `some` prefix when byte `n` is a char
boundary, `none` when it is not (where Rust panics). -/
def rustSliceTo : List Char → Nat → Option (List Char)
  | _, 0 => some []
  | [], _ + 1 => none
  | c :: cs, n + 1 =>
    if c.utf8Size ≤ n + 1 then
      (rustSliceTo cs (n + 1 - c.utf8Size)).map (c :: ·)
    else none

/-- Split a character list at newline characters (no newline dropping yet). -/
def splitNl : List Char → List (List Char)
  | [] => [[]]
  | c :: cs =>
    if c = '\n' then [] :: splitNl cs
    else
      match splitNl cs with
      | l :: ls => (c :: l) :: ls
      | [] => [[c]]

/-- Drop one trailing carriage return (Rust `str::lines` behaviour). -/
def dropCr (cs : List Char) : List Char :=
  if cs.getLast? = some '\r' then cs.dropLast else cs

/-- Model of Rust `str::lines`: split on `\n`, no trailing empty line for a
trailing newline, a trailing `\r` stripped from each line. -/
def rustLines (s : String) : List String :=
  if s.data = [] then []
  else
    let ls := splitNl s.data
    let ls := if ls.getLast? = some [] then ls.dropLast else ls
    ls.map (fun l => String.mk (dropCr l))

/-- Model of `Vec<String>::join(sep)`. -/
def joinWith (sep : String) : List String → String
  | [] => ""
  | [x] => x
  | x :: xs => x ++ sep ++ joinWith sep xs

/-- Model of `Vec<String>::join("\n")` / `lines.join("\n")`. -/
def joinNl (ls : List String) : String := joinWith "\n" ls

/-- Lexicographic comparison of char lists; models Rust `str::cmp` (UTF-8
byte order coincides with code-point order). -/
def cmpChars : List Char → List Char → Ordering
  | [], [] => .eq
  | [], _ :: _ => .lt
  | _ :: _, [] => .gt
  | a :: as, b :: bs => if a < b then .lt else if b < a then .gt else cmpChars as bs

/-- Model of Rust `String::cmp`. -/
def strCmp (a b : String) : Ordering := cmpChars a.data b.data

/-- Model of Rust `str::replace(pat, rep)`: replace all non-overlapping
occurrences left to right (fuel = length of the haystack). -/
def replaceAllGo (pat rep : List Char) : Nat → List Char → List Char
  | _, [] => []
  | 0, cs => cs
  | fuel + 1, c :: cs =>
    if pat ≠ [] ∧ pat.isPrefixOf (c :: cs) then
      rep ++ replaceAllGo pat rep fuel ((c :: cs).drop pat.length)
    else c :: replaceAllGo pat rep fuel cs

/-- Model of Rust `str::replace` on `String`. -/
def replaceAll (s pat rep : String) : String :=
  String.mk (replaceAllGo pat.data rep.data s.data.length s.data)

/-- Remove every occurrence of a set of characters, modelling
`.replace(['"', '\x27'], "")`-style calls. -/
def removeChars (s : String) (bad : List Char) : String :=
  String.mk (s.data.filter (fun c => ¬ bad.contains c))

/-! ## Data model (`Page` from `src/preprocessor/src/page.rs`)

The `struct Page` in the given `page.rs` snapshot omits the `aliases` field,
but `content.rs` (`find_best_page_match`) and the test suite construct and
read `page.aliases`; the field is therefore part of the actual data model and
is included here.  `namespace` is a Lean keyword, so the field is named
`nspace`.  `properties` models the Rust `HashMap<String, String>` as an
association list with unique keys. -/

structure Page where
  name : String
  name_lower : String
  content : String
  properties : List (String × String)
  tags : List String
  aliases : List String
  nspace : Option String
  modified : Option String
  created : Option String
deriving DecidableEq

/-- `pub type PageIndex = Vec<Page>;` -/
def PageIndex := List Page

instance : DecidableEq PageIndex := inferInstanceAs (DecidableEq (List Page))

/-- The data-model invariant that document identity is the (case-preserving)
name: no two pages of an index share a name. -/
def nodupNames (index : PageIndex) : Prop := (index.map Page.name).Nodup

instance (index : PageIndex) : Decidable (nodupNames index) :=
  inferInstanceAs (Decidable (index.map Page.name).Nodup)

/-! ## Link resolver (`find_best_page_match`, content.rs lines 751-842) -/

/-- Strategy 1 test: exact page-name match (case-insensitive, with spaces and
underscores normalized to dashes), per the first loop of
`find_best_page_match`. -/
def step1Matches (link : String) (page : Page) : Bool :=
  let link_lower := lowerStr link
  let link_normalized := dashNorm link_lower
  let page_name := lowerStr page.name
  let page_normalized := dashNorm page_name
  page_name == link_lower || page_normalized == link_normalized

/-- Strategy 2 test: one alias matches the link (case-insensitive, or equal
after dash normalization), per the second loop of `find_best_page_match`. -/
def aliasMatches (link : String) (al : String) : Bool :=
  let alias_lower := lowerStr al
  let alias_normalized := dashNorm alias_lower
  lowerStr link == alias_lower || dashNorm (lowerStr link) == alias_normalized

/-- Split at the first `/`, modelling `link.splitn(2, '/')` (the resolver
only uses it when the link contains a slash). -/
def splitSlash2 (s : String) : String × String :=
  let pre := s.data.takeWhile (· ≠ '/')
  (String.mk pre, String.mk (s.data.drop (pre.length + 1)))

/-- Strategy 3 of `find_best_page_match`: namespace-alias expansion for a
`prefix/suffix` link. -/
def step3Lookup (link : String) (index : List Page) : Option String :=
  if link.data.contains '/' then
    let parts := splitSlash2 link
    let pre := parts.1
    let suffix := parts.2
    let pre_lower := lowerStr pre
    index.findSome? fun page =>
      page.aliases.findSome? fun al =>
        if lowerStr al == pre_lower then
          let expanded_link := page.name ++ "/" ++ suffix
          let expanded_lower := lowerStr expanded_link
          index.findSome? fun target_page =>
            if lowerStr target_page.name == expanded_lower then some target_page.name
            else
              target_page.aliases.findSome? fun target_alias =>
                if lowerStr target_alias == lowerStr link then some target_page.name
                else none
        else none
  else none

/-- Strategy 4 of `find_best_page_match`: longest-prefix match.  The fold
keeps `(best_match, best_len)`; lengths are UTF-8 byte lengths, and the test
`link_words.chars().nth(page_words.len()) == Some(' ')` indexes characters by
the byte length, exactly as the source does. -/
def step4Best (link : String) (index : List Page) : Option String :=
  let link_words := spaceNorm (lowerStr link)
  let best :=
    index.foldl
      (fun (best : Option String × Nat) page =>
        let page_words := spaceNorm (lowerStr page.name)
        if byteLen link_words > byteLen page_words
            && strStarts link_words page_words
            && (link_words.data.get? (byteLen page_words) == some ' ')
            && byteLen page_words > best.2 then
          (some page.name, byteLen page_words)
        else best)
      (none, 0)
  best.1

/-- `find_best_page_match` (content.rs lines 751-842): the four strategies in
order, first hit wins, otherwise the link is returned unchanged. -/
def find_best_page_match (link : String) (index : List Page) : String :=
  if index.any (step1Matches link) then link
  else
    match index.find? (fun page => page.aliases.any (aliasMatches link)) with
    | some page => page.name
    | none =>
      match step3Lookup link index with
      | some name => name
      | none =>
        match step4Best link index with
        | some matched => matched
        | none => link

/-- The per-wikilink rewrite closure of `transform` (content.rs lines
156-180): strip a `pages/` prefix, resolve, and alias-wrap when the resolved
target differs from the written link and no explicit alias was present.
`alias` is the captured `|alias` text including the pipe (empty when the
written link had no alias). -/
def rewrite_wikilink (embed link al : String) (index : List Page) : String :=
  let clean_link := if strStarts link "pages/" then strDrop link 6 else link
  let final_link := find_best_page_match clean_link index
  if final_link ≠ clean_link ∧ al = "" then
    embed ++ "[[" ++ final_link ++ "|" ++ clean_link ++ "]]"
  else
    embed ++ "[[" ++ final_link ++ al ++ "]]"


/-! ## Property-block parsing (`parse_properties`, page.rs lines 90-118) -/

/-- The per-line cleaning `line.trim_start_matches('-').trim()`. -/
def cleanOf (line : String) : String :=
  rustTrim (String.mk (line.data.dropWhile (· = '-')))

/-- Character class of the property-key capture `[a-zA-Z_-]+`. -/
def isKeyChar (c : Char) : Bool :=
  ('a' ≤ c && c ≤ 'z') || ('A' ≤ c && c ≤ 'Z') || c = '_' || c = '-'

/-- Match of `PROP_RE = ^-?\s*([a-zA-Z_-]+)::\s*(.+)$` against a cleaned
line; on success returns the lowercased key and the trimmed value, as
`parse_properties` stores them.  The key class excludes `:`, so greedy
matching is deterministic; `(.+)` requires a non-empty value. -/
def propLineMatch (clean : String) : Option (String × String) :=
  let cs := clean.data
  let cs := match cs with
    | '-' :: rest => rest
    | _ => cs
  let cs := cs.dropWhile Char.isWhitespace
  let key := cs.takeWhile isKeyChar
  if key = [] then none
  else
    match cs.drop key.length with
    | ':' :: ':' :: rest =>
      let value := rest.dropWhile Char.isWhitespace
      if value = [] then none
      else some (lowerStr (String.mk key), rustTrim (String.mk value))
    | _ => none

/-- `HashMap::insert` on the association-list model: overwrite the value of
an existing key, otherwise append. -/
def insertProp (props : List (String × String)) (k v : String) : List (String × String) :=
  if (props.map Prod.fst).contains k then
    props.map (fun kv => if kv.1 = k then (k, v) else kv)
  else props ++ [(k, v)]

/-- The loop of `parse_properties`, written with a drop count relative to the
current position instead of the source's absolute `end_index` (the absolute
index is start position + relative count; `end_index` only moves forward, so
the two presentations agree).  Branches in source order: property line;
blank line with properties started; non-blank line with properties started
(break); non-blank non-dash line before any property (break); otherwise
continue without moving `end_index`. -/
def ppGo : List String → List (String × String) → List (String × String) × Nat
  | [], props => (props, 0)
  | line :: rest, props =>
    let clean := cleanOf line
    match propLineMatch clean with
    | some kv =>
      let r := ppGo rest (insertProp props kv.1 kv.2)
      (r.1, r.2 + 1)
    | none =>
      if clean = "" ∧ props ≠ [] then
        let r := ppGo rest props
        (r.1, r.2 + 1)
      else if props ≠ [] then (props, 0)
      else if clean ≠ "" ∧ ¬ strStartsChar clean '-' then (props, 0)
      else
        let r := ppGo rest props
        (r.1, if r.2 = 0 then 0 else r.2 + 1)

/-- `parse_properties` (page.rs lines 90-118): collect the leading property
block, and return the remaining lines joined by newlines. -/
def parse_properties (content : String) : List (String × String) × String :=
  let lines := rustLines content
  let r := ppGo lines []
  (r.1, joinNl (lines.drop r.2))

/-! ### Specification-level description of `parse_properties`

`bPred` holds for lines inside a started property block (property lines and
blank lines); `aSkip` holds for the lines the loop skips before any property
line has been seen (blank lines and lines whose cleaned form still starts
with a dash, e.g. indented bullet lines). -/

/-- Line extends a started property block: property line or blank line. -/
def bPred (l : String) : Bool :=
  (propLineMatch (cleanOf l)).isSome || cleanOf l == ""

/-- Line is skipped before the first property line: blank, or cleaned form
starts with `-`. -/
def aSkip (l : String) : Bool :=
  (propLineMatch (cleanOf l)).isNone &&
    (cleanOf l == "" || strStartsChar (cleanOf l) '-')

/-- Specification-level property map: skip `aSkip` lines; if the next line
is a property line, fold the property lines of the following `bPred` run
into the map; otherwise there are no properties. -/
def specProps (lines : List String) : List (String × String) :=
  let rest := lines.dropWhile aSkip
  match rest with
  | [] => []
  | r :: _ =>
    if (propLineMatch (cleanOf r)).isSome then
      ((rest.takeWhile bPred).filterMap (fun l => propLineMatch (cleanOf l))).foldl
        (fun ps kv => insertProp ps kv.1 kv.2) []
    else []

/-- Specification-level number of leading lines consumed by the property
block: the skipped lines plus the `bPred` run when a property line is
reached, and `0` otherwise (so the body is then the whole content,
including any skipped lines). -/
def specDrop (lines : List String) : Nat :=
  let pre := lines.takeWhile aSkip
  let rest := lines.dropWhile aSkip
  match rest with
  | [] => 0
  | r :: _ =>
    if (propLineMatch (cleanOf r)).isSome then
      pre.length + (rest.takeWhile bPred).length
    else 0


/-! ## Query operand splitting (`parse_query_parts`, query.rs lines 259-314) -/

/-- State of the `parse_query_parts` character loop. -/
structure SplitSt where
  parts : List String
  current : List Char
  depth : Int
  brackets : Int

/-- Flush `current` after a depth-0 `)`: push the trimmed text when
non-empty (no leading-character check in this branch of the source). -/
def flushAny (st : SplitSt) : SplitSt :=
  let t := rustTrim (String.mk st.current)
  { st with parts := if t ≠ "" then st.parts ++ [t] else st.parts, current := [] }

/-- Flush `current` at top-level whitespace, a balanced `]`, or the end of
input: push the trimmed text when non-empty and starting with `(` or `[`. -/
def flushChecked (st : SplitSt) : SplitSt :=
  let t := rustTrim (String.mk st.current)
  { st with
    parts :=
      if t ≠ "" ∧ (strStartsChar t '(' ∨ strStartsChar t '[') then st.parts ++ [t]
      else st.parts,
    current := [] }

/-- One step of the `parse_query_parts` loop (query.rs lines 265-306). -/
def splitStep (st : SplitSt) (c : Char) : SplitSt :=
  if c = '(' then { st with depth := st.depth + 1, current := st.current ++ [c] }
  else if c = ')' then
    let st' := { st with depth := st.depth - 1, current := st.current ++ [c] }
    if st'.depth = 0 then flushAny st' else st'
  else if c = '[' then { st with brackets := st.brackets + 1, current := st.current ++ [c] }
  else if c = ']' then
    let st' := { st with brackets := st.brackets - 1, current := st.current ++ [c] }
    if st'.depth = 0 ∧ st'.brackets = 0 then flushChecked st' else st'
  else if (c = ' ' ∨ c = '\n' ∨ c = '\t') ∧ st.depth = 0 ∧ st.brackets = 0 then
    flushChecked st
  else { st with current := st.current ++ [c] }

/-- `parse_query_parts` (query.rs lines 259-314). -/
def parse_query_parts (expr : String) : List String :=
  (flushChecked (expr.data.foldl splitStep ⟨[], [], 0, 0⟩)).parts

/-! ## Query expression matchers

Hand-rolled deterministic matchers for the anchored regular expressions of
query.rs lines 6-28.  Every character class used is disjoint from the
literal that follows it, so the greedy matches need no backtracking (noted
per matcher where relevant). -/

/-- Case-insensitive literal prefix (`(?i)` on an ASCII literal given in
lowercase); returns the rest on success. -/
def ciPre : List Char → List Char → Option (List Char)
  | [], cs => some cs
  | _ :: _, [] => none
  | p :: ps, c :: cs => if c.toLower = p then ciPre ps cs else none

/-- `\s+`: at least one whitespace character, consumed greedily. -/
def ws1 : List Char → Option (List Char)
  | [] => none
  | c :: cs => if c.isWhitespace then some (cs.dropWhile Char.isWhitespace) else none

/-- `\s*`. -/
def wsMany (cs : List Char) : List Char := cs.dropWhile Char.isWhitespace

/-- `\[\[([^\]]+)\]\]`: a bracketed capture; the class excludes `]`, so the
greedy capture is deterministic. -/
def brCap (cs : List Char) : Option (List Char × List Char) :=
  match cs with
  | '[' :: '[' :: rest =>
    let cap := rest.takeWhile (· ≠ ']')
    if cap = [] then none
    else
      match rest.drop cap.length with
      | ']' :: ']' :: rest2 => some (cap, rest2)
      | _ => none
  | _ => none

/-- Tail `\s*\)$`. -/
def closeParen (cs : List Char) : Bool := wsMany cs = [')']

/-- `PAGE_RE`: `(?i)^\(page\s+\[\[([^\]]+)\]\]\s*\)$`. -/
def matchPage (expr : String) : Option String :=
  (ciPre "(page".data expr.data).bind fun r =>
  (ws1 r).bind fun r =>
  (brCap r).bind fun cap =>
  if closeParen cap.2 then some (String.mk cap.1) else none

/-- `PAGE_TAGS_RE`: `(?i)^\(page-tags\s+\[\[([^\]]+)\]\]\s*\)$`. -/
def matchPageTags (expr : String) : Option String :=
  (ciPre "(page-tags".data expr.data).bind fun r =>
  (ws1 r).bind fun r =>
  (brCap r).bind fun cap =>
  if closeParen cap.2 then some (String.mk cap.1) else none

/-- `NAMESPACE_RE`: `(?i)^\(namespace\s+\[\[([^\]]+)\]\]\s*\)$`. -/
def matchNamespace (expr : String) : Option String :=
  (ciPre "(namespace".data expr.data).bind fun r =>
  (ws1 r).bind fun r =>
  (brCap r).bind fun cap =>
  if closeParen cap.2 then some (String.mk cap.1) else none

/-- `BETWEEN_RE`: `(?i)^\(between\s+\[\[([^\]]+)\]\]\s+\[\[([^\]]+)\]\]\s*\)$`. -/
def matchBetween (expr : String) : Option (String × String) :=
  (ciPre "(between".data expr.data).bind fun r =>
  (ws1 r).bind fun r =>
  (brCap r).bind fun cap1 =>
  (ws1 cap1.2).bind fun r =>
  (brCap r).bind fun cap2 =>
  if closeParen cap2.2 then some (String.mk cap1.1, String.mk cap2.1) else none

/-- `ALL_PAGE_TAGS_RE`: `(?i)^\(all-page-tags\s*\)$`. -/
def matchAllPageTags (expr : String) : Bool :=
  match ciPre "(all-page-tags".data expr.data with
  | some r => closeParen r
  | none => false

/-- `PRIORITY_RE`: `(?i)^\(priority\s+([abc])\s*\)$`; returns the captured
letter. -/
def matchPriority (expr : String) : Option Char :=
  (ciPre "(priority".data expr.data).bind fun r =>
  (ws1 r).bind fun r =>
  match r with
  | c :: rest =>
    if (c.toLower = 'a' ∨ c.toLower = 'b' ∨ c.toLower = 'c') ∧ closeParen rest then some c
    else none
  | [] => none

/-- The task-state alternation of `TASK_RE`; no alternative is a prefix of
another, so at most one can match at a given position.  Returns the
canonical uppercase state (the source uppercases the capture). -/
def taskState (cs : List Char) : Option (String × List Char) :=
  match ciPre "todo".data cs with
  | some r => some ("TODO", r)
  | none =>
  match ciPre "done".data cs with
  | some r => some ("DONE", r)
  | none =>
  match ciPre "now".data cs with
  | some r => some ("NOW", r)
  | none =>
  match ciPre "doing".data cs with
  | some r => some ("DOING", r)
  | none =>
  match ciPre "later".data cs with
  | some r => some ("LATER", r)
  | none =>
  match ciPre "waiting".data cs with
  | some r => some ("WAITING", r)
  | none =>
  match ciPre "cancelled".data cs with
  | some r => some ("CANCELLED", r)
  | none => none

/-- After one state of `TASK_RE`: either the `\s*\)$` tail, or `\s+` and
further states (fuel = input length). -/
def taskStatesGo : Nat → List Char → Option (List String)
  | 0, _ => none
  | _fuel + 1, cs =>
    if closeParen cs then some []
    else
      match cs with
      | c :: _ =>
        if c.isWhitespace then
          match taskState (wsMany cs) with
          | some sr =>
            match taskStatesGo _fuel sr.2 with
            | some states => some (sr.1 :: states)
            | none => none
          | none => none
        else none
      | [] => none

/-- `TASK_RE`: `(?i)^\(task\s+(STATES(\s+STATES)*)\s*\)$`; returns the
uppercased states (the source uppercases the capture and splits it on
whitespace). -/
def matchTask (expr : String) : Option (List String) :=
  (ciPre "(task".data expr.data).bind fun r =>
  (ws1 r).bind fun r =>
  (taskState r).bind fun sr =>
  (taskStatesGo (sr.2.length + 1) sr.2).map (fun states => sr.1 :: states)

/-- `\w` (ASCII word character). -/
def isWordChar (c : Char) : Bool :=
  ('a' ≤ c && c ≤ 'z') || ('A' ≤ c && c ≤ 'Z') || ('0' ≤ c && c ≤ '9') || c = '_'

/-- Strip all leading and trailing `"` characters (Rust
`str::trim_matches('"')`). -/
def trimQuotes (s : String) : String :=
  String.mk (((s.data.dropWhile (· = '"')).reverse.dropWhile (· = '"')).reverse)

/-- The optional value group of `PROPERTY_RE`,
`(?:\s+(?:"([^"]+)"|(\S+)))?\s*\)$`, applied to the text after the key.
Returns `some none` for no value, `some (some v)` for a captured raw value,
`none` when the expression does not match.  The `\S+` alternative must leave
a `\s*\)` tail; backtracking makes its capture the longest whitespace-free
prefix compatible with that tail, computed here directly. -/
def propValuePart (q : List Char) : Option (Option String) :=
  if closeParen q then some none
  else
    match q with
    | c :: _ =>
      if c.isWhitespace then
        let rcs := wsMany q
        let quoted :=
          match rcs with
          | '"' :: t =>
            let cap := t.takeWhile (· ≠ '"')
            if cap ≠ [] then
              match t.drop cap.length with
              | '"' :: tail => if closeParen tail then some cap else none
              | _ => none
            else none
          | _ => none
        match quoted with
        | some cap => some (some (String.mk cap))
        | none =>
          let p := rcs.takeWhile (fun c => ¬ c.isWhitespace)
          let rest := rcs.drop p.length
          if p ≠ [] ∧ rest ≠ [] ∧ rest.getLast? = some ')' ∧ rest.dropLast.all Char.isWhitespace then
            some (some (String.mk p))
          else if rest = [] ∧ p.getLast? = some ')' ∧ p.dropLast ≠ [] then
            some (some (String.mk p.dropLast))
          else none
      else none
    | [] => none

/-- `PROPERTY_RE`:
`(?i)^\((?:page-)?property\s+:?(\w+[-\w]*)(?:\s+(?:"([^"]+)"|(\S+)))?\s*\)$`;
returns the raw key and optional raw value. -/
def matchProperty (expr : String) : Option (String × Option String) :=
  match expr.data with
  | '(' :: r =>
    let r := match ciPre "page-".data r with
      | some r' => r'
      | none => r
    (ciPre "property".data r).bind fun r =>
    (ws1 r).bind fun r =>
    let r := match r with
      | ':' :: rest => rest
      | _ => r
    match r with
    | c :: _ =>
      if isWordChar c then
        let key := r.takeWhile (fun c => isWordChar c || c = '-')
        (propValuePart (r.drop key.length)).map (fun v => (String.mk key, v))
      else none
    | [] => none
  | _ => none

/-- `PAGE_REF_RE`: `^\[\[([^\]]+)\]\]$` (case-sensitive). -/
def matchPageRef (expr : String) : Option String :=
  (brCap expr.data).bind fun cap =>
  if cap.2 = [] then some (String.mk cap.1) else none

/-- `TEXT_SEARCH_RE`: `^"([^"]+)"$`. -/
def matchTextSearch (expr : String) : Option String :=
  match expr.data with
  | '"' :: t =>
    let cap := t.takeWhile (· ≠ '"')
    if cap ≠ [] then
      match t.drop cap.length with
      | ['"'] => some (String.mk cap)
      | _ => none
    else none
  | _ => none

/-! ## Date parsing (`parse_date`, query.rs lines 317-359)

Dates are modelled as `(year, month, day)` triples encoded for comparison;
`chrono::NaiveDate` validity is modelled with the Gregorian month lengths and
leap rule.  Only non-negative years are modelled (journal page names). -/

/-- Day count of a Gregorian month. -/
def daysInMonth (y m : Nat) : Nat :=
  if m = 1 ∨ m = 3 ∨ m = 5 ∨ m = 7 ∨ m = 8 ∨ m = 10 ∨ m = 12 then 31
  else if m = 4 ∨ m = 6 ∨ m = 9 ∨ m = 11 then 30
  else if m = 2 then (if (y % 4 = 0 ∧ y % 100 ≠ 0) ∨ y % 400 = 0 then 29 else 28)
  else 0

/-- `NaiveDate::from_ymd_opt`, encoded as `y*10000 + m*100 + d` (monotone for
valid dates, so `≤` on the encoding is date order). -/
def mkDate (y m d : Nat) : Option Nat :=
  if 1 ≤ m ∧ m ≤ 12 ∧ 1 ≤ d ∧ d ≤ daysInMonth y m then some (y * 10000 + m * 100 + d)
  else none

/-- Parse a non-empty all-digit character list. -/
def parseNatDigits (cs : List Char) : Option Nat :=
  if cs ≠ [] ∧ cs.all Char.isDigit then
    some (cs.foldl (fun n c => n * 10 + (c.toNat - '0'.toNat)) 0)
  else none

/-- The month-name alternation of `DATE_RE` (three-letter prefixes). -/
def monthNum (cs : List Char) : Option (Nat × List Char) :=
  let alts : List (List Char × Nat) :=
    [("jan".data, 1), ("feb".data, 2), ("mar".data, 3), ("apr".data, 4),
     ("may".data, 5), ("jun".data, 6), ("jul".data, 7), ("aug".data, 8),
     ("sep".data, 9), ("oct".data, 10), ("nov".data, 11), ("dec".data, 12)]
  alts.findSome? fun alt =>
    match ciPre alt.1 cs with
    | some r => some (alt.2, r)
    | none => none

/-- `parse_date` (query.rs lines 317-359): underscores normalized to dashes,
then `%Y-%m-%d`, then the `Month D(st|nd|rd|th)?, YYYY` pattern. -/
def parse_date (date_str : String) : Option Nat :=
  let normalized := String.mk (date_str.data.map (fun c => if c = '_' then '-' else c))
  let ymd :=
    match normalized.data.splitOn '-' with
    | [ys, ms, ds] =>
      if ms.length ≤ 2 ∧ ds.length ≤ 2 then
        (parseNatDigits ys).bind fun y =>
        (parseNatDigits ms).bind fun m =>
        (parseNatDigits ds).bind fun d =>
        mkDate y m d
      else none
    | _ => none
  match ymd with
  | some date => some date
  | none =>
    (monthNum (lowerStr date_str).data).bind fun mr =>
    let r := mr.2.dropWhile (fun c => 'a' ≤ c ∧ c ≤ 'z')
    (ws1 r).bind fun r =>
    let dds := r.takeWhile Char.isDigit
    if dds.length = 1 ∨ dds.length = 2 then
      let r := r.drop dds.length
      let r := match ciPre "st".data r with
        | some r' => r'
        | none => match ciPre "nd".data r with
          | some r' => r'
          | none => match ciPre "rd".data r with
            | some r' => r'
            | none => match ciPre "th".data r with
              | some r' => r'
              | none => r
      let r := match r with
        | ',' :: rest => rest
        | _ => r
      (ws1 r).bind fun r =>
      let yds := r.takeWhile Char.isDigit
      if yds.length = 4 ∧ r.drop 4 = [] then
        (parseNatDigits dds).bind fun d =>
        (parseNatDigits yds).bind fun y =>
        mkDate y mr.1 d
      else none
    else none


/-! ## Query execution (`execute_expr` and friends, query.rs lines 31-256)

`execute_expr` recurses through `execute_and`/`execute_or`/`(not …)` on
strictly shorter sub-expressions; the recursion is embedded with a fuel
argument (any fuel at least the expression nesting depth gives the source
behaviour; fuel `0` returns the empty result). -/

/-- `extract_inner` (query.rs lines 47-61): peel `(keyword … )`; the source
only accepts the keyword spelled exactly lowercase or exactly uppercase. -/
def extract_inner (expr keyword : String) : Option String :=
  if strStarts (lowerStr expr) ("(" ++ keyword) ∧ strEndsChar expr ')' then
    let after_paren := strDrop expr 1
    match (stripPre after_paren keyword).orElse (fun _ => stripPre after_paren (upperStr keyword)) with
    | some after_keyword =>
      let inner := trimStartStr after_keyword
      if strEndsChar inner ')' then some (String.mk inner.data.dropLast) else none
    | none => none
  else none

/-- `HashMap::get` on the association-list model of `Page.properties`. -/
def lookupProp (props : List (String × String)) (k : String) : Option String :=
  (props.find? (fun kv => kv.1 == k)).map Prod.snd

/-- Remove all dashes, modelling `.replace('-', "")`. -/
def removeDashes (s : String) : String := String.mk (s.data.filter (· ≠ '-'))

/-- The primitive (non-recursive) branches of `execute_expr` (query.rs lines
82-224), each returning `some results` when its pattern fires, in source
order; the `(between …)` branch falls through when either date fails to
parse, exactly as the nested `if let` does. -/
def tryTask (expr : String) (index : List Page) : Option (List Page) :=
  (matchTask expr).map fun states =>
    index.filter fun p =>
      states.any fun state =>
        containsSub p.content ("- " ++ state ++ " ") || containsSub p.content ("\n" ++ state ++ " ")

/-- `(priority a|b|c)` branch (query.rs lines 97-104). -/
def tryPriority (expr : String) (index : List Page) : Option (List Page) :=
  (matchPriority expr).map fun c =>
    let pattern := "[#" ++ String.mk [c.toUpper] ++ "]"
    index.filter fun p => containsSub p.content pattern

/-- `(between [[d1]] [[d2]])` branch (query.rs lines 107-124); `none` when
the pattern does not fire or either endpoint fails to parse. -/
def tryBetween (expr : String) (index : List Page) : Option (List Page) :=
  (matchBetween expr).bind fun caps =>
    match parse_date caps.1, parse_date caps.2 with
    | some start, some «end» =>
      some (index.filter fun p =>
        let name := (stripPre p.name "journals/").getD p.name
        match parse_date name with
        | some page_date => start ≤ page_date ∧ page_date ≤ «end»
        | none => false)
    | _, _ => none

/-- `(all-page-tags)` branch (query.rs lines 127-141). -/
def tryAllPageTags (expr : String) (index : List Page) : Option (List Page) :=
  if matchAllPageTags expr then
    some (index.filter fun p => index.any fun q => q.tags.contains p.name_lower)
  else none

/-- `(page [[name]])` branch (query.rs lines 144-149). -/
def tryPage (expr : String) (index : List Page) : Option (List Page) :=
  (matchPage expr).map fun cap =>
    let page_name := lowerStr cap
    let page_name := (stripPre page_name "pages/").getD page_name
    index.filter fun p => p.name_lower == page_name

/-- `(page-tags [[tag]])` branch (query.rs lines 152-157). -/
def tryPageTags (expr : String) (index : List Page) : Option (List Page) :=
  (matchPageTags expr).map fun cap =>
    let tag := lowerStr cap
    let tag := (stripPre tag "pages/").getD tag
    index.filter fun p => p.tags.contains tag

/-- `(namespace [[x]])` branch (query.rs lines 160-167). -/
def tryNamespace (expr : String) (index : List Page) : Option (List Page) :=
  (matchNamespace expr).map fun cap =>
    let ns := lowerStr cap
    let ns := (stripPre ns "pages/").getD ns
    index.filter fun p => (p.nspace.map (fun n => lowerStr n == ns)).getD false

/-- `(property :key value)` branch (query.rs lines 170-189). -/
def tryProperty (expr : String) (index : List Page) : Option (List Page) :=
  (matchProperty expr).map fun kv =>
    let key := removeDashes (lowerStr kv.1)
    let value := (kv.2.map (fun v => trimQuotes (lowerStr v))).getD ""
    index.filter fun p =>
      let prop_val := ((lookupProp p.properties key).map lowerStr).getD ""
      if value = "" then prop_val ≠ ""
      else prop_val == value || containsSub prop_val value

/-- Bare `[[page]]` reference branch (query.rs lines 192-202). -/
def tryPageRef (expr : String) (index : List Page) : Option (List Page) :=
  (matchPageRef expr).map fun cap =>
    let page_name := lowerStr cap
    let page_name := (stripPre page_name "pages/").getD page_name
    index.filter fun p =>
      p.name_lower == page_name
        || containsSub (lowerStr p.content) ("[[" ++ page_name ++ "]]")

/-- `"text"` search branch (query.rs lines 205-211). -/
def tryTextSearch (expr : String) (index : List Page) : Option (List Page) :=
  (matchTextSearch expr).map fun cap =>
    let search := lowerStr cap
    index.filter fun p => containsSub (lowerStr p.content) search

/-- Plain-text search branch (query.rs lines 214-222); the length test is on
UTF-8 bytes. -/
def tryPlainText (expr : String) (index : List Page) : Option (List Page) :=
  if ¬ strStartsChar expr '(' ∧ ¬ strStartsChar expr '[' then
    let search := removeChars (lowerStr expr) ['"', '\'']
    if byteLen search > 2 then
      some (index.filter fun p => containsSub (lowerStr p.content) search)
    else none
  else none

/-- The chain of primitive branches of `execute_expr` after `and`/`or`/`not`,
in source order; `Vec::new()` when nothing fires. -/
def execute_prim (expr : String) (index : List Page) : List Page :=
  match tryTask expr index with
  | some r => r
  | none =>
  match tryPriority expr index with
  | some r => r
  | none =>
  match tryBetween expr index with
  | some r => r
  | none =>
  match tryAllPageTags expr index with
  | some r => r
  | none =>
  match tryPage expr index with
  | some r => r
  | none =>
  match tryPageTags expr index with
  | some r => r
  | none =>
  match tryNamespace expr index with
  | some r => r
  | none =>
  match tryProperty expr index with
  | some r => r
  | none =>
  match tryPageRef expr index with
  | some r => r
  | none =>
  match tryTextSearch expr index with
  | some r => r
  | none =>
  match tryPlainText expr index with
  | some r => r
  | none => []

/-- `execute_and` (query.rs lines 227-241), parameterized by the evaluator
for the operand expressions: the first operand's results, retained by
name-membership in each later operand's results. -/
def execute_and_with (eval : String → List Page → List Page)
    (inner : String) (index : List Page) : List Page :=
  match parse_query_parts inner with
  | [] => []
  | first :: restParts =>
    restParts.foldl
      (fun result part =>
        let matching_names := (eval part index).map Page.name
        result.filter (fun p => matching_names.contains p.name))
      (eval first index)

/-- `execute_or` (query.rs lines 243-256), parameterized by the evaluator:
a fold with a seen-name set (modelled as a list) and an output list. -/
def execute_or_with (eval : String → List Page → List Page)
    (inner : String) (index : List Page) : List Page :=
  ((parse_query_parts inner).foldl
    (fun (st : List String × List Page) part =>
      (eval part index).foldl
        (fun st page =>
          if st.1.contains page.name then st
          else (page.name :: st.1, st.2 ++ [page]))
        st)
    ([], [])).2

/-- The `(not …)` branch of `execute_expr` (query.rs lines 74-79),
parameterized by the evaluator: the index filtered by name-absence from the
operand's results. -/
def execute_not_with (eval : String → List Page → List Page)
    (inner : String) (index : List Page) : List Page :=
  let excluded := eval inner index
  let excluded_names := excluded.map Page.name
  index.filter fun p => ¬ excluded_names.contains p.name

/-- `execute_expr` (query.rs lines 42-225) with fuel for the recursion
through `and`/`or`/`not`. -/
def execute_expr : Nat → String → List Page → List Page
  | 0, _, _ => []
  | fuel + 1, expr0, index =>
    let expr := rustTrim expr0
    match extract_inner expr "and" with
    | some inner => execute_and_with (execute_expr fuel) inner index
    | none =>
    match extract_inner expr "or" with
    | some inner => execute_or_with (execute_expr fuel) inner index
    | none =>
    match extract_inner expr "not" with
    | some inner => execute_not_with (execute_expr fuel) inner index
    | none => execute_prim expr index

/-- `execute_and` at a given fuel for the operand evaluations. -/
def execute_and (fuel : Nat) (inner : String) (index : List Page) : List Page :=
  execute_and_with (execute_expr fuel) inner index

/-- `execute_or` at a given fuel for the operand evaluations. -/
def execute_or (fuel : Nat) (inner : String) (index : List Page) : List Page :=
  execute_or_with (execute_expr fuel) inner index

/-- The `(not …)` body at a given fuel for the operand evaluation. -/
def execute_not (fuel : Nat) (inner : String) (index : List Page) : List Page :=
  execute_not_with (execute_expr fuel) inner index


/-! ## Query options and result rendering (query.rs lines 362-588) -/

/-- `QueryOptions` (query.rs lines 362-369). -/
structure QueryOptions where
  properties : List String
  sort_by : Option String
  sort_desc : Bool
  table : Option Bool
deriving DecidableEq

/-- `QueryOptions::default()`. -/
def defaultOptions : QueryOptions :=
  { properties := [], sort_by := none, sort_desc := false, table := none }

/-- `get_page_property` (query.rs lines 483-496). -/
def get_page_property (page : Page) (key : String) : String :=
  let k := lowerStr key
  if k = "page" ∨ k = "name" then page.name
  else if k = "created" then page.created.getD ""
  else if k = "modified" ∨ k = "updated" then page.modified.getD ""
  else if k = "tags" then String.intercalate ", " page.tags
  else if k = "namespace" then page.nspace.getD ""
  else ((lookupProp page.properties (removeDashes (lowerStr key))).getD "")

/-- Model of Rust's stable `sort_by` on a comparator: `List.insertionSort`
with the relation `cmp a b ≠ Greater` is a stable sort, and a stable sort is
determined by its comparator, so it computes the same list as the source's
stable merge sort. -/
def rustSortBy (cmp : Page → Page → Ordering) (l : List Page) : List Page :=
  List.insertionSort (fun a b => cmp a b ≠ .gt) l

/-- The comparator passed to `sort_by` when a sort key is given (query.rs
lines 429-437): compare property values, swapped when `sort_desc`. -/
def sortCmp (desc : Bool) (key : String) (a b : Page) : Ordering :=
  let a_val := get_page_property a key
  let b_val := get_page_property b key
  if desc then strCmp b_val a_val else strCmp a_val b_val

/-- The sorting stage of `results_to_markdown_with_options` (query.rs lines
427-440): by the explicit key, otherwise by name ascending. -/
def sortResults (options : QueryOptions) (results : List Page) : List Page :=
  match options.sort_by with
  | some sort_key => rustSortBy (sortCmp options.sort_desc sort_key) results
  | none => rustSortBy (fun a b => strCmp a.name b.name) results

/-- `render_list` (query.rs lines 458-480). -/
def render_list (results : List Page) : String :=
  String.intercalate "\n"
    (results.map fun p =>
      let icon := (lookupProp p.properties "icon").getD ""
      let title := (lookupProp p.properties "title").getD (replaceAll p.name "_" " ")
      "- [[" ++ p.name ++ "|" ++ (if icon = "" then "" else icon ++ " ") ++ title ++ "]]")

/-- Header title of one column (query.rs lines 505-515): `page`/`name`
render as `Page`, anything else has its first character uppercased. -/
def columnHeader (prop : String) : String :=
  let k := lowerStr prop
  if k = "page" ∨ k = "name" then "Page"
  else
    match prop.data with
    | [] => ""
    | f :: rest => String.mk (f.toUpper :: rest)

/-- One data cell (query.rs lines 531-540): the page column is a plain
wikilink; other values have pipes escaped as an HTML entity. -/
def columnCell (page : Page) (prop : String) : String :=
  let k := lowerStr prop
  if k = "page" ∨ k = "name" then "[[" ++ page.name ++ "]]"
  else replaceAll (get_page_property page prop) "|" "&#124;"

/-- `render_table` (query.rs lines 499-547). -/
def render_table (results : List Page) (properties : List String) : String :=
  let header := "|" ++ String.join (properties.map fun p => " " ++ columnHeader p ++ " |") ++ "\n"
  let sep := "|" ++ String.join (properties.map fun _ => " --- |") ++ "\n"
  let rows := results.map fun page =>
    "|" ++ String.join (properties.map fun p => " " ++ columnCell page p ++ " |") ++ "\n"
  header ++ sep ++ String.join rows

/-- System properties excluded from auto-column detection (query.rs lines
560-564). -/
def excludedKeys : List String := ["title", "icon", "public", "alias", "aliases"]

/-- `HashMap` entry-increment (`*prop_counts.entry(key).or_insert(0) += 1`)
on the association-list model: bump an existing key in place, else append
with count 1 (the hash map is unordered; first-seen order is a canonical
choice, and the strict sort below makes the result order-independent). -/
def countBump (m : List (String × Nat)) (k : String) : List (String × Nat) :=
  if (m.map Prod.fst).contains k then
    m.map (fun e => if e.1 = k then (e.1, e.2 + 1) else e)
  else m ++ [(k, 1)]

/-- The candidate-column occurrences one page contributes in
`detect_common_properties` (query.rs lines 557-571): its property keys minus
the excluded ones, plus a synthetic `tags` column when the page has tags. -/
def pageCandKeys (p : Page) : List String :=
  (p.properties.map Prod.fst).filter (fun k => ¬ excludedKeys.contains (lowerStr k))
    ++ (if p.tags = [] then [] else ["tags"])

/-- Comparator ordering for auto-detected columns (query.rs line 580):
descending count, ties by ascending key. -/
def entryCmp (a b : String × Nat) : Ordering :=
  (compare b.2 a.2).then (strCmp a.1 b.1)

/-- Stable sort of count entries by `entryCmp` (model of
`prop_list.sort_by`); `entryCmp` is strict on entries with distinct keys, so
the result does not depend on the hash-map iteration order. -/
def sortEntries (l : List (String × Nat)) : List (String × Nat) :=
  List.insertionSort (fun a b => entryCmp a b ≠ .gt) l

/-- `detect_common_properties` (query.rs lines 550-588): count candidate
columns, keep those meeting `max(1, results.len() / 3)`, sort by descending
count then ascending name, take three, with `page` always first. -/
def detect_common_properties (results : List Page) : List String :=
  let prop_counts := (results.flatMap pageCandKeys).foldl countBump []
  let threshold := max 1 (results.length / 3)
  let prop_list := prop_counts.filter (fun e => threshold ≤ e.2)
  "page" :: ((sortEntries prop_list).take 3).map Prod.fst

/-- The empty-result callout of `results_to_markdown_with_options` (query.rs
lines 415-424), with the byte-slice truncation `&query_str[..80]` modelled
as fallible: `Except.error` is the char-boundary panic of the source. -/
def emptyCallout (query_str : String) : Except String String :=
  let quoted :=
    if byteLen query_str > 80 then
      match rustSliceTo query_str.data 80 with
      | some pre => Except.ok (String.mk pre ++ "...")
      | none => Except.error "byte index 80 is not a char boundary"
    else Except.ok query_str
  quoted.map fun q =>
    "> [!info] Query Results\n> No pages match this query.\n> `" ++ q ++ "`"

instance : DecidableEq (Except String String) := fun a b =>
  match a, b with
  | .ok x, .ok y => if h : x = y then .isTrue (by simp [h]) else .isFalse (by simp [h])
  | .error x, .error y => if h : x = y then .isTrue (by simp [h]) else .isFalse (by simp [h])
  | .ok _, .error _ => .isFalse (by simp)
  | .error _, .ok _ => .isFalse (by simp)

/-- `results_to_markdown_with_options` (query.rs lines 410-455). -/
def results_to_markdown_with_options (results : List Page) (query_str : String)
    (options : QueryOptions) : Except String String :=
  if results = [] then emptyCallout query_str
  else
    let sorted := sortResults options results
    if options.properties ≠ [] then Except.ok (render_table sorted options.properties)
    else if options.table = some false then Except.ok (render_list sorted)
    else Except.ok (render_table sorted (detect_common_properties sorted))

/-! ## Table repair (`fix_tables`, content.rs lines 614-743) -/

/-- `is_separator_row` (content.rs lines 707-714). -/
def is_separator_row (line : String) : Bool :=
  let t := rustTrim line
  strStartsChar t '|' && strEndsChar t '|'
    && t.data.all (fun c => c = '|' ∨ c = '-' ∨ c = ':' ∨ c = ' ')
    && t.data.contains '-'

/-- `get_line_prefix` (content.rs lines 717-724): the text before the first
pipe. -/
def lineIndent (line : String) : String :=
  if line.data.contains '|' then String.mk (line.data.takeWhile (· ≠ '|')) else ""

/-- Replace the last `"- "` of the prefix by `"  "`, working on the
reversed character list (models `rfind("- ")` + `replace_range`): the first
adjacent pair `' ', '-'` of the reversed list is the last `"- "` of the
original. -/
def contIndentRevGo : List Char → Option (List Char)
  | [] => none
  | c :: rest =>
    if c = ' ' ∧ rest.head? = some '-' then some (' ' :: ' ' :: rest.tail)
    else (contIndentRevGo rest).map (c :: ·)

/-- `get_continuation_prefix` (content.rs lines 728-743): turn the last
`"- "` into `"  "`, or a trailing `-` into a space. -/
def contIndent (first : String) : String :=
  match contIndentRevGo first.data.reverse with
  | some r => String.mk r.reverse
  | none =>
    if strEndsChar first '-' then String.mk (first.data.dropLast ++ [' '])
    else first

/-- The bullet-stripped table content of a block's first line
(`trimmed.trim_start_matches('-').trim_start()`). -/
def afterBullet (line : String) : String :=
  trimStartStr (String.mk ((rustTrim line).data.dropWhile (· = '-')))

/-- Table-block start test (content.rs lines 630-633). -/
def isTableStart (line : String) : Bool :=
  let ab := afterBullet line
  strStartsChar ab '|' && 2 ≤ countChar ab '|'

/-- The block-emission step of `fix_tables` (content.rs lines 659-697):
given the collected lines and their content forms, emit the header, a
synthetic separator when no collected content is a valid separator with the
header's column count, and the remaining lines minus wrong-column-count
separator-shaped rows. -/
def emitTable (tableLines tableContents : List String) : List String :=
  match tableLines, tableContents with
  | l0 :: lrest, c0 :: crest =>
    let header_col_count := countChar c0 '|' - 1
    let has_valid_separator :=
      (c0 :: crest).any fun c =>
        is_separator_row c && (countChar c '|' - 1 == header_col_count)
    let base :=
      if ¬ has_valid_separator ∧ (c0 :: crest).length > 1 ∧ header_col_count > 0 then
        [l0, contIndent (lineIndent l0) ++ "|"
              ++ joinWith "|" (List.replicate header_col_count "---") ++ "|"]
      else [l0]
    base
      ++ ((lrest.zip crest).filter fun lc =>
            ¬ (is_separator_row lc.2 ∧ countChar lc.2 '|' - 1 ≠ header_col_count)).map Prod.fst
  | _, _ => tableLines

/-- The line loop of `fix_tables` (content.rs lines 620-704), fueled by the
number of lines. -/
def ftGo : Nat → List String → List String
  | 0, ls => ls
  | _ + 1, [] => []
  | fuel + 1, line :: rest =>
    if isTableStart line then
      let contLines := rest.takeWhile (fun l => strStartsChar (rustTrim l) '|')
      let tail := rest.drop contLines.length
      emitTable (line :: contLines) (afterBullet line :: contLines.map rustTrim) ++ ftGo fuel tail
    else line :: ftGo fuel rest

/-- `fix_tables` (content.rs lines 620-705). -/
def fix_tables (content : String) : String :=
  let lines := rustLines content
  joinNl (ftGo lines.length lines)


/-! ## Dollar escaping (`escape_dollars_outside_wikilinks`, content.rs lines
236-277) -/

/-- Uppercase ASCII letter (`[A-Z]`). -/
def isUpperAZ (c : Char) : Bool := 'A' ≤ c && c ≤ 'Z'

/-- `[A-Z0-9]`. -/
def isUpperAZ09 (c : Char) : Bool := isUpperAZ c || ('0' ≤ c && c ≤ '9')

/-- `[\d,.]`. -/
def isCurrencyChar (c : Char) : Bool := c.isDigit || c = ',' || c = '.'

/-- `[kKmMbB]`. -/
def isCurrencySuffix (c : Char) : Bool :=
  c = 'k' ∨ c = 'K' ∨ c = 'm' ∨ c = 'M' ∨ c = 'b' ∨ c = 'B'

/-- One wikilink-shaped match of `WIKILINK_PLACEHOLDER_RE`
(`!?\[\[[^\]]+\]\]`) at the current position: the matched text and the rest.
The inner class excludes `]`, so the greedy run is deterministic. -/
def wlTry (cs : List Char) : Option (List Char × List Char) :=
  let core : List Char → Option (List Char × List Char) := fun cs =>
    match cs with
    | '[' :: '[' :: rest =>
      let run := rest.takeWhile (· ≠ ']')
      if run = [] then none
      else
        match rest.drop run.length with
        | ']' :: ']' :: rest2 => some ('[' :: '[' :: (run ++ [']', ']']), rest2)
        | _ => none
    | _ => none
  match cs with
  | '!' :: rest =>
    match core rest with
    | some m => some ('!' :: m.1, m.2)
    | none => none
  | _ => core cs

/-- The placeholder text `\x00WIKILINK{i}\x00` of
`escape_dollars_outside_wikilinks`. -/
def wlPlaceholder (i : Nat) : List Char :=
  '\x00' :: ("WIKILINK".data ++ (toString i).data ++ ['\x00'])

/-- Step 1 of `escape_dollars_outside_wikilinks`: replace each wikilink span
by a numbered placeholder, collecting the spans (fuel = input length). -/
def protectWl : Nat → List Char → List (List Char) → List Char × List (List Char)
  | 0, cs, acc => (cs, acc)
  | _ + 1, [], acc => ([], acc)
  | fuel + 1, c :: cs, acc =>
    match wlTry (c :: cs) with
    | some m =>
      let r := protectWl fuel m.2 (acc ++ [m.1])
      (wlPlaceholder acc.length ++ r.1, r.2)
    | none =>
      let r := protectWl fuel cs acc
      (c :: r.1, r.2)

/-- Step 2 of `escape_dollars_outside_wikilinks`: `replace_all` of
`DOLLAR_TOKEN_RE = (^|[^\\])\$([A-Z][A-Z0-9]*)` with `{prefix}\\${token}`.
`atStart` is true only at the start of the input, where the `^` alternative
applies; the scan continues after each match end, as `replace_all` does. -/
def escTok : Nat → List Char → Bool → List Char
  | 0, cs, _ => cs
  | _ + 1, [], _ => []
  | fuel + 1, '$' :: c :: cs, true =>
    if isUpperAZ c then
      let token := c :: cs.takeWhile isUpperAZ09
      '\\' :: '$' :: token ++ escTok fuel (cs.dropWhile isUpperAZ09) false
    else '$' :: escTok fuel (c :: cs) false
  | fuel + 1, a :: '$' :: c :: cs, _ =>
    if a ≠ '\\' ∧ isUpperAZ c then
      let token := c :: cs.takeWhile isUpperAZ09
      a :: '\\' :: '$' :: token ++ escTok fuel (cs.dropWhile isUpperAZ09) false
    else a :: escTok fuel ('$' :: c :: cs) false
  | fuel + 1, c :: cs, _ => c :: escTok fuel cs false

/-- Step 3: `replace_all` of
`DOLLAR_CURRENCY_RE = (^|[^\\])\$(\d[\d,.]*[kKmMbB]?)`. -/
def escCur : Nat → List Char → Bool → List Char
  | 0, cs, _ => cs
  | _ + 1, [], _ => []
  | fuel + 1, '$' :: c :: cs, true =>
    if c.isDigit then
      let run := cs.takeWhile isCurrencyChar
      let rest := cs.dropWhile isCurrencyChar
      let amount := c :: run ++ (match rest with
        | s :: _ => if isCurrencySuffix s then [s] else []
        | [] => [])
      let rest := match rest with
        | s :: r => if isCurrencySuffix s then r else rest
        | [] => rest
      '\\' :: '$' :: amount ++ escCur fuel rest false
    else '$' :: escCur fuel (c :: cs) false
  | fuel + 1, a :: '$' :: c :: cs, _ =>
    if a ≠ '\\' ∧ c.isDigit then
      let run := cs.takeWhile isCurrencyChar
      let rest := cs.dropWhile isCurrencyChar
      let amount := c :: run ++ (match rest with
        | s :: _ => if isCurrencySuffix s then [s] else []
        | [] => [])
      let rest := match rest with
        | s :: r => if isCurrencySuffix s then r else rest
        | [] => rest
      a :: '\\' :: '$' :: amount ++ escCur fuel rest false
    else a :: escCur fuel ('$' :: c :: cs) false
  | fuel + 1, c :: cs, _ => c :: escCur fuel cs false

/-- Step 4: restore the protected spans,
`result.replace(&placeholder, wikilink)` for each index in order. -/
def restoreWl (cs : List Char) (placeholders : List (List Char)) : List Char :=
  (placeholders.enum.foldl
    (fun acc pi => replaceAllGo (wlPlaceholder pi.1) pi.2 acc.length acc)
    cs)

/-- `escape_dollars_outside_wikilinks` (content.rs lines 236-277). -/
def escape_dollars_outside_wikilinks (content : String) : String :=
  let protected_ := protectWl content.data.length content.data []
  let escaped := escTok protected_.1.length protected_.1 true
  let escaped := escCur escaped.length escaped true
  String.mk (restoreWl escaped protected_.2)


/-! ## Specification-level definitions used by the claim statements -/

/-- First-seen deduplication by document identity (the spec's "union in
first-seen order with duplicates removed"). -/
def dedupFirst (seen : List Page) : List Page → List Page
  | [] => []
  | x :: xs => if x ∈ seen then dedupFirst seen xs else x :: dedupFirst (x :: seen) xs

/-- First-seen deduplication of the code's or-loop, by page name (the seen
set of `execute_or` holds names). -/
def nameDedupGo (seenNames : List String) : List Page → List Page
  | [] => []
  | x :: xs =>
    if seenNames.contains x.name then nameDedupGo seenNames xs
    else x :: nameDedupGo (x.name :: seenNames) xs

/-- First-seen deduplication of strings (candidate column keys in
first-occurrence order). -/
def dedupFirstStr (seen : List String) : List String → List String
  | [] => []
  | x :: xs => if seen.contains x then dedupFirstStr seen xs else x :: dedupFirstStr (x :: seen) xs

/-- Specification-level occurrence count of a candidate column: the number
of result pages carrying the property key (excluded keys never counted),
plus, for the synthetic `tags` column, the number of result pages with a
non-empty tag set. -/
def countOcc (results : List Page) (k : String) : Nat :=
  (if lowerStr k ∈ excludedKeys then 0
   else results.countP (fun p => k ∈ (p.properties.map Prod.fst)))
    + (if k = "tags" then results.countP (fun p => p.tags ≠ []) else 0)

/-- Candidate column keys in first-occurrence order. -/
def candKeysInOrder (results : List Page) : List String :=
  dedupFirstStr [] (results.flatMap pageCandKeys)

/-- The specification-level auto-column selection for `C6`: candidates with
their occurrence counts, filtered by the threshold, sorted by descending
count then ascending name, first three, after the `page` column. -/
def autoColumnsSpec (results : List Page) : List String :=
  let pairs := (candKeysInOrder results).map (fun k => (k, countOcc results k))
  let threshold := max 1 (results.length / 3)
  "page" :: ((sortEntries (pairs.filter (fun e => threshold ≤ e.2))).take 3).map Prod.fst


/-- Concrete page constructor used by witnesses and counterexamples, with
the `name_lower` invariant of the index builder. -/
def mkPage (name content : String) (props : List (String × String))
    (tags aliases : List String) : Page :=
  { name := name, name_lower := lowerStr name, content := content, properties := props,
    tags := tags, aliases := aliases, nspace := none, modified := none, created := none }

/-! ## Helper lemmas -/

theorem step1Matches_self (D : Page) : step1Matches D.name D = true := by
  simp [step1Matches]

theorem find_best_page_match_mem_name {index : List Page} {D : Page} (hD : D ∈ index) :
    find_best_page_match D.name index = D.name := by
  have h : index.any (step1Matches D.name) = true :=
    List.any_eq_true.mpr ⟨D, hD, step1Matches_self D⟩
  simp [find_best_page_match, h]


/-! ## Claim C2 -/

/-- Claim C2, corrected.  For every document `D` of the index, resolving
`D.name` returns `D.name` unchanged; and when `D.name` does not begin with
the root prefix `pages/` (which `transform` strips before resolving), the
rewritten link for a bare `[[D.name]]` is the plain `[[D.name]]` with no
display alias added. -/
theorem C2_resolve_identity (index : List Page) (D : Page) (hD : D ∈ index) :
    find_best_page_match D.name index = D.name
    ∧ (strStarts D.name "pages/" = false →
        rewrite_wikilink "" D.name "" index = "[[" ++ D.name ++ "]]") := by
  refine ⟨find_best_page_match_mem_name hD, fun hpre => ?_⟩
  have hself := find_best_page_match_mem_name hD
  simp [rewrite_wikilink, hpre, hself]

/-- Witness for C2 at a concrete index. -/
theorem C2_witness :
    (mkPage "Visit" "" [] [] []) ∈ [mkPage "Visit" "" [] [] [], mkPage "other" "" [] [] []]
    ∧ strStarts (mkPage "Visit" "" [] [] []).name "pages/" = false
    ∧ find_best_page_match "Visit" [mkPage "Visit" "" [] [] [], mkPage "other" "" [] [] []] = "Visit"
    ∧ rewrite_wikilink "" "Visit" "" [mkPage "Visit" "" [] [] [], mkPage "other" "" [] [] []]
        = "[[" ++ "Visit" ++ "]]" :=
  ⟨by decide, by decide,
    (C2_resolve_identity [mkPage "Visit" "" [] [] [], mkPage "other" "" [] [] []]
      (mkPage "Visit" "" [] [] []) (by decide)).1,
    (C2_resolve_identity [mkPage "Visit" "" [] [] [], mkPage "other" "" [] [] []]
      (mkPage "Visit" "" [] [] []) (by decide)).2 (by decide)⟩

/-- Counterexample to claim C2 as stated: the index contains a document
named `pages/visit us` (filename `pages___visit us.md`) and a document
`visit`; the rewrite of the first document's own name alias-wraps it as
`[[visit|visit us]]`, because `transform` strips `pages/` before calling
the resolver. -/
theorem C2_counterexample :
    (mkPage "pages/visit us" "" [] [] [])
        ∈ [mkPage "pages/visit us" "" [] [] [], mkPage "visit" "" [] [] []]
    ∧ rewrite_wikilink "" "pages/visit us" ""
          [mkPage "pages/visit us" "" [] [] [], mkPage "visit" "" [] [] []]
        = "[[visit|visit us]]"
    ∧ "[[visit|visit us]]" ≠ "[[pages/visit us]]" := by decide


/-! ## Claim C1 -/

/-- Claim C1, corrected.  When no document matches the link at resolver
step 1 (case-insensitive, spaces/underscores normalized to dashes) and some
document owns an alias matching the link under the same normalized
case-insensitive comparison, the resolver returns the canonical name of the
first such document in index order; a case-insensitively equal alias (such
as alias `CV` for link `cv`) is such a match. -/
theorem C1_alias_resolution (index : List Page) (link : String) (P : Page)
    (h1 : ∀ p ∈ index, step1Matches link p = false)
    (h2 : index.find? (fun p => p.aliases.any (aliasMatches link)) = some P) :
    find_best_page_match link index = P.name := by
  have hany : index.any (step1Matches link) = false := by
    rw [List.any_eq_false]
    intro p hp
    simp [h1 p hp]
  simp [find_best_page_match, hany, h2]

/-- Witness for C1: alias `CV` resolves link `cv` to `Cyber Valley`. -/
theorem C1_witness :
    (∀ p ∈ [mkPage "Cyber Valley" "" [] [] ["CV"], mkPage "other" "" [] [] []],
        step1Matches "cv" p = false)
    ∧ [mkPage "Cyber Valley" "" [] [] ["CV"], mkPage "other" "" [] [] []].find?
          (fun p => p.aliases.any (aliasMatches "cv"))
        = some (mkPage "Cyber Valley" "" [] [] ["CV"])
    ∧ find_best_page_match "cv" [mkPage "Cyber Valley" "" [] [] ["CV"], mkPage "other" "" [] [] []]
        = "Cyber Valley" :=
  ⟨by decide, by decide,
    C1_alias_resolution [mkPage "Cyber Valley" "" [] [] ["CV"], mkPage "other" "" [] [] []]
      "cv" (mkPage "Cyber Valley" "" [] [] ["CV"]) (by decide) (by decide)⟩

/-- Counterexample to claim C1 as stated: link `x-y` case-insensitively
equals an alias only of `ownerB`, and is no document's name, yet the
resolver returns `ownerA`, whose alias `x_y` matches only after
dash/underscore normalization and which comes first in index order. -/
theorem C1_counterexample :
    (∃ p ∈ [mkPage "ownerA" "" [] [] ["x_y"], mkPage "ownerB" "" [] [] ["x-y"]],
        ∃ a ∈ p.aliases, lowerStr a = lowerStr "x-y")
    ∧ (∀ p ∈ [mkPage "ownerA" "" [] [] ["x_y"], mkPage "ownerB" "" [] [] ["x-y"]],
        lowerStr p.name ≠ lowerStr "x-y")
    ∧ find_best_page_match "x-y" [mkPage "ownerA" "" [] [] ["x_y"], mkPage "ownerB" "" [] [] ["x-y"]]
        = "ownerA"
    ∧ ¬ (∃ p ∈ [mkPage "ownerA" "" [] [] ["x_y"], mkPage "ownerB" "" [] [] ["x-y"]],
          (∃ a ∈ p.aliases, lowerStr a = lowerStr "x-y")
            ∧ find_best_page_match "x-y"
                [mkPage "ownerA" "" [] [] ["x_y"], mkPage "ownerB" "" [] [] ["x-y"]] = p.name) := by
  decide


/-! ## Claim C9 -/

/-- Claim C9, confirmed on the concrete patterns named by the
specification: the currency amounts `$100`, `$50,000`, `$10k` and the
all-caps token `$BOOT` appearing in prose are backslash-escaped, while the
bracket-link span `[[$BOOT]]` and the embed span `![[Fund $BOOT now]]` are
restored byte-for-byte unchanged. -/
theorem C9_dollar_escaping :
    escape_dollars_outside_wikilinks
        "- The price is $100 USD, budget $50,000, cost $10k. Use $BOOT for staking, see [[$BOOT]] and ![[Fund $BOOT now]]."
      = "- The price is \\$100 USD, budget \\$50,000, cost \\$10k. Use \\$BOOT for staking, see [[$BOOT]] and ![[Fund $BOOT now]]."
    ∧ containsSub
        (escape_dollars_outside_wikilinks
          "- The price is $100 USD, budget $50,000, cost $10k. Use $BOOT for staking, see [[$BOOT]] and ![[Fund $BOOT now]].")
        "[[$BOOT]]" = true
    ∧ containsSub
        (escape_dollars_outside_wikilinks
          "- The price is $100 USD, budget $50,000, cost $10k. Use $BOOT for staking, see [[$BOOT]] and ![[Fund $BOOT now]].")
        "![[Fund $BOOT now]]" = true := by
  decide

/-! ## Claim C4 -/

/-- Claim C4, a code bug.  Rendering an empty result set builds the
informational callout and truncates a query longer than 80 bytes at byte 80;
for the 81-byte query of 79 `a`s followed by `é`, byte 80 is not a character
boundary, and the byte slice `&query_str[..80]` panics, so rendering is not
total and the failure propagates: the embedded render returns the error of
the fallible slice.  For an all-ASCII long query the callout is produced
with the 80-byte prefix and an ellipsis, and an unrecognized query
expression evaluates to the empty result list. -/
theorem C4_render_panic :
    results_to_markdown_with_options []
        (String.mk (List.replicate 79 'a' ++ ['é'])) defaultOptions
      = Except.error "byte index 80 is not a char boundary"
    ∧ results_to_markdown_with_options []
        (String.mk (List.replicate 100 'a')) defaultOptions
      = Except.ok ("> [!info] Query Results\n> No pages match this query.\n> `"
          ++ String.mk (List.replicate 80 'a') ++ "...`")
    ∧ execute_expr 5 "(bogus stuff)" [mkPage "p" "hello" [] [] []] = [] := by
  decide


/-! ## Claim C8 -/

theorem countChar_append (a b : String) (c : Char) :
    countChar (a ++ b) c = countChar a c + countChar b c := by
  simp [countChar, String.data_append]

theorem countChar_lineIndent (l : String) : countChar (lineIndent l) '|' = 0 := by
  unfold lineIndent
  split
  · simp [countChar]
    exact List.count_eq_zero.mpr (fun h => by
      have := List.mem_takeWhile_imp h
      simp_all)
  · simp [countChar]

theorem contIndentRevGo_count (cs : List Char) :
    ∀ r, contIndentRevGo cs = some r → r.count '|' = cs.count '|' := by
  induction cs with
  | nil => intro r h; simp [contIndentRevGo] at h
  | cons c rest ih =>
    intro r h
    rw [contIndentRevGo] at h
    split at h
    · rename_i hsp
      obtain ⟨hc, hh⟩ := hsp
      simp at h
      subst h
      subst hc
      cases rest with
      | nil => simp at hh
      | cons r0 rtl =>
        simp at hh
        subst hh
        simp
    · match hr : contIndentRevGo rest with
      | some r' =>
        rw [hr] at h
        simp at h
        subst h
        simp only [List.count_cons, ih r' hr]
      | none => rw [hr] at h; simp at h

theorem count_dropLast_space : ∀ cs : List Char, cs.getLast? = some '-' →
    ((cs.dropLast ++ [' ']).count '|') = cs.count '|'
  | [], h => by simp at h
  | [c], h => by
    simp at h
    subst h
    rfl
  | c :: c2 :: rest, h => by
    have ih := count_dropLast_space (c2 :: rest) (by simpa using h)
    simp only [List.dropLast_cons_of_ne_nil (by simp : (c2 :: rest : List Char) ≠ [])]
    rw [List.cons_append, List.count_cons, List.count_cons, ih]

theorem countChar_contIndent (s : String) : countChar (contIndent s) '|' = countChar s '|' := by
  unfold contIndent
  split
  · rename_i r hr
    have := contIndentRevGo_count _ _ hr
    simp only [countChar, String.mk]
    rw [List.count_reverse]
    rw [this, List.count_reverse]
  · rename_i hr
    split
    · rename_i hend
      have hlast : s.data.getLast? = some '-' := by
        simpa [strEndsChar] using hend
      simpa [countChar] using count_dropLast_space s.data hlast
    · rfl

theorem countChar_joinWith_replicate (n : Nat) (h : 1 ≤ n) :
    countChar (joinWith "|" (List.replicate n "---")) '|' = n - 1 := by
  induction n with
  | zero => omega
  | succ m ih =>
    rcases Nat.eq_or_lt_of_le h with h1 | h1
    · simp [← h1, joinWith, countChar]
    · have hm : 1 ≤ m := by omega
      have hrep : List.replicate (m + 1) "---" = "---" :: List.replicate m "---" := by
        simp [List.replicate]
      rcases m with _ | m'
      · omega
      · rw [hrep]
        have : joinWith "|" ("---" :: List.replicate (m' + 1) "---")
            = "---" ++ "|" ++ joinWith "|" (List.replicate (m' + 1) "---") := by
          simp [List.replicate, joinWith]
        rw [this, countChar_append, countChar_append, ih hm]
        simp [countChar]
        omega

/-- Claim C8, confirmed.  For a collected bulleted table block whose header
content has `N = pipes - 1` columns, containing a separator-shaped row of a
different column count and no valid `N`-column separator, the emitted block
is the header line, then a synthetic separator with exactly `N` dash cells
(`N + 1` pipes), then the remaining lines with every wrong-column-count
separator-shaped row omitted. -/
theorem C8_table_repair (l0 : String) (lrest : List String) (c0 : String) (crest : List String)
    (hcols : 2 ≤ countChar c0 '|')
    (hM : ∃ c ∈ crest, is_separator_row c = true ∧ countChar c '|' - 1 ≠ countChar c0 '|' - 1)
    (hNoValid : ∀ c ∈ c0 :: crest,
        ¬ (is_separator_row c = true ∧ countChar c '|' - 1 = countChar c0 '|' - 1)) :
    emitTable (l0 :: lrest) (c0 :: crest)
      = l0
        :: (contIndent (lineIndent l0) ++ "|"
              ++ joinWith "|" (List.replicate (countChar c0 '|' - 1) "---") ++ "|")
        :: ((lrest.zip crest).filter fun lc =>
              ¬ (is_separator_row lc.2 ∧ countChar lc.2 '|' - 1 ≠ countChar c0 '|' - 1)).map Prod.fst
    ∧ countChar (contIndent (lineIndent l0) ++ "|"
          ++ joinWith "|" (List.replicate (countChar c0 '|' - 1) "---") ++ "|") '|'
        = countChar c0 '|' := by
  constructor
  · have hvalid : ((c0 :: crest).any fun c =>
        is_separator_row c && (countChar c '|' - 1 == countChar c0 '|' - 1)) = false := by
      rw [List.any_eq_false]
      intro c hc
      have := hNoValid c hc
      simp only [Bool.and_eq_true, beq_iff_eq]
      tauto
    obtain ⟨cM, hcM, _⟩ := hM
    have hlen : (c0 :: crest).length > 1 := by
      cases crest with
      | nil => simp at hcM
      | cons _ _ => simp
    have hN : countChar c0 '|' - 1 > 0 := by omega
    simp only [emitTable, hvalid, Bool.not_eq_true, hlen, hN]
    simp
  · rw [countChar_append, countChar_append, countChar_append,
      countChar_contIndent, countChar_lineIndent,
      countChar_joinWith_replicate _ (by omega)]
    have h1 : countChar "|" '|' = 1 := by decide
    rw [h1]
    omega

/-- Witness for C8 at a concrete three-line block: header with two columns,
a three-column separator-shaped row, a data row. -/
theorem C8_witness :
    2 ≤ countChar "| a | b |" '|'
    ∧ (∃ c ∈ ["|---|---|---|", "| 1 | 2 |"],
        is_separator_row c = true ∧ countChar c '|' - 1 ≠ countChar "| a | b |" '|' - 1)
    ∧ (∀ c ∈ "| a | b |" :: ["|---|---|---|", "| 1 | 2 |"],
        ¬ (is_separator_row c = true ∧ countChar c '|' - 1 = countChar "| a | b |" '|' - 1))
    ∧ (emitTable ["- | a | b |", "  |---|---|---|", "  | 1 | 2 |"]
          ["| a | b |", "|---|---|---|", "| 1 | 2 |"]
        = "- | a | b |"
          :: (contIndent (lineIndent "- | a | b |") ++ "|"
                ++ joinWith "|" (List.replicate (countChar "| a | b |" '|' - 1) "---") ++ "|")
          :: ((["  |---|---|---|", "  | 1 | 2 |"].zip ["|---|---|---|", "| 1 | 2 |"]).filter fun lc =>
                ¬ (is_separator_row lc.2 ∧ countChar lc.2 '|' - 1 ≠ countChar "| a | b |" '|' - 1)).map
              Prod.fst
      ∧ countChar (contIndent (lineIndent "- | a | b |") ++ "|"
            ++ joinWith "|" (List.replicate (countChar "| a | b |" '|' - 1) "---") ++ "|") '|'
          = countChar "| a | b |" '|') :=
  ⟨by decide, by decide, by decide,
    C8_table_repair "- | a | b |" ["  |---|---|---|", "  | 1 | 2 |"]
      "| a | b |" ["|---|---|---|", "| 1 | 2 |"]
      (by decide) (by decide) (by decide)⟩


/-! ## Claim C5 -/

theorem cmpChars_self : ∀ cs : List Char, cmpChars cs cs = .eq
  | [] => rfl
  | c :: cs => by simp [cmpChars, cmpChars_self cs]

theorem cmpChars_le_trans : ∀ a b c : List Char,
    cmpChars a b ≠ .gt → cmpChars b c ≠ .gt → cmpChars a c ≠ .gt
  | [], _, c, _, _ => by cases c <;> simp [cmpChars]
  | _ :: _, [], _, hab, _ => by simp [cmpChars] at hab
  | _ :: _, _ :: _, [], _, hbc => by simp [cmpChars] at hbc
  | a0 :: as, b0 :: bs, c0 :: cs, hab, hbc => by
    simp only [cmpChars] at hab hbc ⊢
    rcases lt_trichotomy a0 c0 with hac | hac | hac
    · rw [if_pos hac]
      simp
    · rw [if_neg (by rw [hac]; exact lt_irrefl c0), if_neg (by rw [hac]; exact lt_irrefl c0)]
      rcases lt_trichotomy a0 b0 with hb | hb | hb
      · rcases lt_trichotomy b0 c0 with h2 | h2 | h2
        · have hx : a0 < c0 := lt_trans hb h2
          rw [hac] at hx
          exact absurd hx (lt_irrefl c0)
        · have hx : a0 < c0 := by rw [← h2]; exact hb
          rw [hac] at hx
          exact absurd hx (lt_irrefl c0)
        · rw [if_neg (lt_asymm h2), if_pos h2] at hbc
          exact absurd rfl hbc
      · rw [← hb] at hbc
        rw [if_neg (by rw [hac]; exact lt_irrefl c0),
          if_neg (by rw [hac]; exact lt_irrefl c0)] at hbc
        rw [hb] at hab
        rw [if_neg (lt_irrefl b0), if_neg (lt_irrefl b0)] at hab
        exact cmpChars_le_trans as bs cs hab hbc
      · rw [if_neg (lt_asymm hb), if_pos hb] at hab
        exact absurd rfl hab
    · exfalso
      rcases lt_trichotomy a0 b0 with hb | hb | hb
      · rcases lt_trichotomy b0 c0 with h2 | h2 | h2
        · exact absurd (lt_trans hb h2) (lt_asymm hac)
        · exact absurd (h2 ▸ hb) (lt_asymm hac)
        · rw [if_neg (lt_asymm h2), if_pos h2] at hbc
          exact hbc rfl
      · rw [← hb, if_neg (lt_asymm hac), if_pos hac] at hbc
        exact hbc rfl
      · rw [if_neg (lt_asymm hb), if_pos hb] at hab
        exact hab rfl

theorem cmpChars_le_total : ∀ a b : List Char, cmpChars a b ≠ .gt ∨ cmpChars b a ≠ .gt
  | [], b => by cases b <;> simp [cmpChars]
  | _ :: _, [] => by right; simp [cmpChars]
  | a0 :: as, b0 :: bs => by
    simp only [cmpChars]
    rcases lt_trichotomy a0 b0 with h | h | h
    · left
      rw [if_pos h]
      simp
    · rw [← h]
      split_ifs with h1
      · exact absurd h1 (lt_irrefl a0)
      · exact cmpChars_le_total as bs
    · right
      rw [if_pos h]
      simp

theorem strCmp_le_trans (a b c : String)
    (hab : strCmp a b ≠ .gt) (hbc : strCmp b c ≠ .gt) : strCmp a c ≠ .gt :=
  cmpChars_le_trans a.data b.data c.data hab hbc

theorem strCmp_le_total (a b : String) : strCmp a b ≠ .gt ∨ strCmp b a ≠ .gt :=
  cmpChars_le_total a.data b.data

theorem strCmp_self (a : String) : strCmp a a = .eq := cmpChars_self a.data

/-- Rust's stable `sort_by` with a comparator derived from a key function:
the output is a permutation of the input, is sorted for the comparator's
non-strict order, and is stable (the elements of any single key value keep
their input order, stated as filter preservation). -/
theorem rustSortBy_key (cmp : Page → Page → Ordering) (f : Page → String)
    (hcmp : ∀ a b, cmp a b = strCmp (f a) (f b)) (l : List Page) :
    List.Perm (rustSortBy cmp l) l
    ∧ (rustSortBy cmp l).Sorted (fun a b => cmp a b ≠ .gt)
    ∧ ∀ v : String, (rustSortBy cmp l).filter (fun p => f p == v)
        = l.filter (fun p => f p == v) := by
  refine ⟨List.perm_insertionSort _ l, ?_, ?_⟩
  · haveI : IsTotal Page (fun a b => cmp a b ≠ .gt) :=
      ⟨fun a b => by
        simp only [hcmp a b, hcmp b a]
        exact strCmp_le_total (f a) (f b)⟩
    haveI : IsTrans Page (fun a b => cmp a b ≠ .gt) :=
      ⟨fun a b c hab hbc => by
        simp only [hcmp] at hab hbc ⊢
        exact strCmp_le_trans (f a) (f b) (f c) hab hbc⟩
    exact List.sorted_insertionSort _ l
  · intro v
    set p : Page → Bool := fun x => f x == v with hp
    have hall : ∀ x ∈ l.filter p, p x = true := fun x hx => List.of_mem_filter hx
    have hpw : (l.filter p).Pairwise (fun a b => cmp a b ≠ .gt) := by
      apply List.pairwise_of_forall_mem_list
      intro a ha b hb
      have hfa : f a = v := by simpa [hp] using hall a ha
      have hfb : f b = v := by simpa [hp] using hall b hb
      rw [hcmp, hfa, hfb, strCmp_self]
      simp
    have hsub : List.Sublist (l.filter p) (rustSortBy cmp l) :=
      List.sublist_insertionSort hpw (List.filter_sublist l)
    have hcp : (l.filter p).filter p = l.filter p := List.filter_eq_self.mpr hall
    have hsub2 : List.Sublist (l.filter p) ((rustSortBy cmp l).filter p) :=
      hcp ▸ List.Sublist.filter p hsub
    have hperm : List.Perm ((rustSortBy cmp l).filter p) (l.filter p) :=
      (List.perm_insertionSort _ l).filter p
    exact (List.Sublist.eq_of_length hsub2 hperm.length_eq.symm).symm


/-- Claim C5, corrected.  With an explicit ascending sort key, rendering
sorts the results stably by that key: the sorted list is a permutation of
the results, is sorted under the key comparator, and ties keep their input
order (filter preservation per key value) - they are NOT re-broken by
document name.  Without an explicit key, results are sorted by document
name ascending. -/
theorem C5_sorting (results : List Page) (opts : QueryOptions) (key : String) :
    (opts.sort_by = some key → opts.sort_desc = false →
      List.Perm (sortResults opts results) results
      ∧ (sortResults opts results).Sorted
          (fun a b => strCmp (get_page_property a key) (get_page_property b key) ≠ .gt)
      ∧ ∀ v, (sortResults opts results).filter (fun p => get_page_property p key == v)
          = results.filter (fun p => get_page_property p key == v))
    ∧ (opts.sort_by = none →
      List.Perm (sortResults opts results) results
      ∧ (sortResults opts results).Sorted (fun a b => strCmp a.name b.name ≠ .gt)) := by
  constructor
  · intro hkey hdesc
    have hsr : sortResults opts results = rustSortBy (sortCmp false key) results := by
      simp [sortResults, hkey, hdesc]
    have hfacts := rustSortBy_key (sortCmp false key) (fun p => get_page_property p key)
      (fun a b => by simp [sortCmp]) results
    rw [hsr]
    refine ⟨hfacts.1, ?_, hfacts.2.2⟩
    have := hfacts.2.1
    apply List.Pairwise.imp _ this
    intro a b h
    simpa [sortCmp] using h
  · intro hkey
    have hsr : sortResults opts results = rustSortBy (fun a b => strCmp a.name b.name) results := by
      simp [sortResults, hkey]
    have hfacts := rustSortBy_key (fun a b => strCmp a.name b.name) Page.name
      (fun a b => rfl) results
    rw [hsr]
    exact ⟨hfacts.1, hfacts.2.1⟩

/-- Witness for C5 at concrete result lists: two pages with distinct values
of the key `k` for the explicit-key part, and two pages for the default
name ordering. -/
theorem C5_witness :
    ((QueryOptions.mk [] (some "k") false none).sort_by = some "k"
      ∧ (QueryOptions.mk [] (some "k") false none).sort_desc = false
      ∧ (List.Perm
            (sortResults (QueryOptions.mk [] (some "k") false none)
              [mkPage "b" "" [("k", "2")] [] [], mkPage "a" "" [("k", "1")] [] []])
            [mkPage "b" "" [("k", "2")] [] [], mkPage "a" "" [("k", "1")] [] []]
        ∧ (sortResults (QueryOptions.mk [] (some "k") false none)
              [mkPage "b" "" [("k", "2")] [] [], mkPage "a" "" [("k", "1")] [] []]).Sorted
            (fun a b => strCmp (get_page_property a "k") (get_page_property b "k") ≠ .gt)
        ∧ ∀ v, ((sortResults (QueryOptions.mk [] (some "k") false none)
              [mkPage "b" "" [("k", "2")] [] [], mkPage "a" "" [("k", "1")] [] []]).filter
                (fun p => get_page_property p "k" == v))
            = ([mkPage "b" "" [("k", "2")] [] [], mkPage "a" "" [("k", "1")] [] []].filter
                (fun p => get_page_property p "k" == v))))
    ∧ (List.Perm
          (sortResults defaultOptions [mkPage "b" "" [] [] [], mkPage "a" "" [] [] []])
          [mkPage "b" "" [] [] [], mkPage "a" "" [] [] []]
      ∧ (sortResults defaultOptions [mkPage "b" "" [] [] [], mkPage "a" "" [] [] []]).Sorted
          (fun a b => strCmp a.name b.name ≠ .gt)) :=
  ⟨⟨rfl, rfl,
    (C5_sorting [mkPage "b" "" [("k", "2")] [] [], mkPage "a" "" [("k", "1")] [] []]
      (QueryOptions.mk [] (some "k") false none) "k").1 rfl rfl⟩,
   (C5_sorting [mkPage "b" "" [] [] [], mkPage "a" "" [] [] []] defaultOptions "anything").2 rfl⟩

/-- Counterexample to claim C5 as stated: two results with equal values of
the explicit sort key, in non-name order; the code's stable sort keeps the
input order `[b, a]`, whereas a tie broken by document name ascending would
give `[a, b]`. -/
theorem C5_counterexample :
    get_page_property (mkPage "b" "" [("k", "v")] [] []) "k"
        = get_page_property (mkPage "a" "" [("k", "v")] [] []) "k"
    ∧ sortResults (QueryOptions.mk [] (some "k") false none)
          [mkPage "b" "" [("k", "v")] [] [], mkPage "a" "" [("k", "v")] [] []]
        = [mkPage "b" "" [("k", "v")] [] [], mkPage "a" "" [("k", "v")] [] []]
    ∧ sortResults (QueryOptions.mk [] (some "k") false none)
          [mkPage "b" "" [("k", "v")] [] [], mkPage "a" "" [("k", "v")] [] []]
        ≠ [mkPage "a" "" [("k", "v")] [] [], mkPage "b" "" [("k", "v")] [] []] := by
  decide


/-! ## Claim C6 -/

theorem mem_dedupFirstStr : ∀ (seen l : List String) (x : String),
    x ∈ dedupFirstStr seen l ↔ x ∈ l ∧ x ∉ seen
  | _, [], x => by simp [dedupFirstStr]
  | seen, y :: l, x => by
    rw [dedupFirstStr]
    split
    · rename_i hy
      have hys : y ∈ seen := by simpa using hy
      rw [mem_dedupFirstStr seen l x]
      simp only [List.mem_cons]
      constructor
      · rintro ⟨h1, h2⟩
        exact ⟨Or.inr h1, h2⟩
      · rintro ⟨h1 | h1, h2⟩
        · subst h1
          exact absurd hys h2
        · exact ⟨h1, h2⟩
    · rename_i hy
      have hy' : y ∉ seen := by simpa using hy
      simp only [List.mem_cons, mem_dedupFirstStr (y :: seen) l x]
      constructor
      · rintro (h | ⟨h1, h2⟩)
        · subst h
          exact ⟨Or.inl rfl, hy'⟩
        · push_neg at h2
          exact ⟨Or.inr h1, h2.2⟩
      · rintro ⟨h1 | h1, h2⟩
        · subst h1
          exact Or.inl rfl
        · by_cases hx : x = y
          · exact Or.inl hx
          · refine Or.inr ⟨h1, ?_⟩
            push_neg
            exact ⟨hx, h2⟩

theorem dedupFirstStr_append_one : ∀ (seen l : List String) (k : String),
    dedupFirstStr seen (l ++ [k])
      = dedupFirstStr seen l ++ (if k ∈ seen ∨ k ∈ l then [] else [k])
  | seen, [], k => by
    by_cases h : k ∈ seen
    · simp [dedupFirstStr, h]
    · simp [dedupFirstStr, h]
  | seen, x :: l, k => by
    rw [List.cons_append, dedupFirstStr]
    split
    · rename_i hx
      have hxs : x ∈ seen := by simpa using hx
      rw [dedupFirstStr_append_one seen l k]
      conv_rhs => rw [dedupFirstStr, if_pos hx]
      congr 1
      have hiff : (k ∈ seen ∨ k ∈ l) ↔ (k ∈ seen ∨ k ∈ x :: l) := by
        rw [List.mem_cons]
        constructor
        · rintro (h | h)
          · exact Or.inl h
          · exact Or.inr (Or.inr h)
        · rintro (h | h | h)
          · exact Or.inl h
          · exact Or.inl (h ▸ hxs)
          · exact Or.inr h
      simp only [hiff]
    · rename_i hx
      rw [dedupFirstStr_append_one (x :: seen) l k]
      conv_rhs => rw [dedupFirstStr, if_neg hx]
      rw [List.cons_append]
      congr 1
      have hiff : (k ∈ x :: seen ∨ k ∈ l) ↔ (k ∈ seen ∨ k ∈ x :: l) := by
        rw [List.mem_cons, List.mem_cons]
        tauto
      simp only [hiff]

/-- The canonical value of the count accumulator after a key stream. -/
def mkAcc (st : List String) : List (String × Nat) :=
  (dedupFirstStr [] st).map (fun k => (k, st.count k))

theorem countBump_mkAcc (st : List String) (k : String) :
    countBump (mkAcc st) k = mkAcc (st ++ [k]) := by
  unfold countBump mkAcc
  have hfst : ((dedupFirstStr [] st).map (fun j => (j, st.count j))).map Prod.fst
      = dedupFirstStr [] st := by
    rw [List.map_map]
    have hid : (Prod.fst ∘ fun j => (j, st.count j)) = id := rfl
    rw [hid, List.map_id]
  by_cases hk : k ∈ st
  · rw [if_pos]
    · rw [dedupFirstStr_append_one, if_pos (Or.inr hk), List.append_nil, List.map_map]
      apply List.map_congr_left
      intro j _
      by_cases hj : j = k
      · subst hj
        simp [Function.comp, List.count_append]
      · simp only [Function.comp]
        rw [if_neg (by simp [hj])]
        rw [List.count_append]
        have : List.count j [k] = 0 := by
          rw [List.count_eq_zero]
          simp [hj]
        rw [this]
        simp
    · rw [hfst]
      have : k ∈ dedupFirstStr [] st := (mem_dedupFirstStr [] st k).mpr ⟨hk, by simp⟩
      simpa using this
  · rw [if_neg]
    · rw [dedupFirstStr_append_one, if_neg (by simp [hk]), List.map_append]
      congr 1
      · apply List.map_congr_left
        intro j hj
        have hjmem : j ∈ st := ((mem_dedupFirstStr [] st j).mp hj).1
        have hjk : j ≠ k := fun h => hk (h ▸ hjmem)
        rw [List.count_append]
        have : List.count j [k] = 0 := by
          rw [List.count_eq_zero]
          simp [hjk]
        rw [this]
        simp
      · simp [List.count_append, List.count_eq_zero.mpr hk]
    · rw [hfst]
      intro hc
      have : k ∈ dedupFirstStr [] st := by simpa using hc
      exact hk ((mem_dedupFirstStr [] st k).mp this).1

theorem foldl_countBump_mkAcc : ∀ (st pre : List String),
    st.foldl countBump (mkAcc pre) = mkAcc (pre ++ st)
  | [], pre => by simp [List.foldl_nil]
  | k :: st, pre => by
    rw [List.foldl_cons, countBump_mkAcc, foldl_countBump_mkAcc st (pre ++ [k])]
    simp

theorem foldl_countBump_nil (st : List String) :
    st.foldl countBump [] = mkAcc st := by
  have h0 : (mkAcc []) = ([] : List (String × Nat)) := by simp [mkAcc, dedupFirstStr]
  have h := foldl_countBump_mkAcc st []
  rw [h0] at h
  simpa using h

theorem count_pageCandKeys (p : Page) (k : String)
    (hnodup : (p.properties.map Prod.fst).Nodup) :
    (pageCandKeys p).count k
      = (if lowerStr k ∈ excludedKeys then 0
          else if k ∈ (p.properties.map Prod.fst) then 1 else 0)
        + (if k = "tags" then (if p.tags = [] then 0 else 1) else 0) := by
  unfold pageCandKeys
  rw [List.count_append]
  congr 1
  · have hnf : ((p.properties.map Prod.fst).filter
        (fun j => ¬ excludedKeys.contains (lowerStr j))).Nodup := hnodup.filter _
    rw [List.count_eq_of_nodup hnf]
    by_cases hexcl : lowerStr k ∈ excludedKeys
    · rw [if_pos hexcl, if_neg]
      rw [List.mem_filter]
      push_neg
      intro _
      simp [hexcl]
    · rw [if_neg hexcl]
      by_cases hmem : k ∈ (p.properties.map Prod.fst)
      · rw [if_pos hmem, if_pos]
        refine List.mem_filter.mpr ⟨hmem, ?_⟩
        simp [hexcl]
      · rw [if_neg hmem, if_neg]
        rw [List.mem_filter]
        push_neg
        intro hc
        exact absurd hc hmem
  · by_cases ht : p.tags = []
    · simp [ht]
    · by_cases hk : k = "tags"
      · subst hk
        simp [ht, List.count_cons]
      · simp [ht, hk, List.count_cons, List.count_eq_zero]

theorem count_flatMap_cand (results : List Page) (k : String)
    (hnodup : ∀ p ∈ results, (p.properties.map Prod.fst).Nodup) :
    (results.flatMap pageCandKeys).count k = countOcc results k := by
  induction results with
  | nil => simp [countOcc]
  | cons p rs ih =>
    rw [List.flatMap_cons, List.count_append,
      count_pageCandKeys p k (hnodup p (List.mem_cons_self p rs)),
      ih (fun q hq => hnodup q (List.mem_cons_of_mem p hq))]
    unfold countOcc
    rw [List.countP_cons, List.countP_cons]
    by_cases hkt : k = "tags"
    · subst hkt
      by_cases hexcl : lowerStr "tags" ∈ excludedKeys <;>
        by_cases hmem : "tags" ∈ (p.properties.map Prod.fst) <;>
        by_cases htags : p.tags = [] <;>
        simp [hexcl, hmem, htags] <;>
        omega
    · by_cases hexcl : lowerStr k ∈ excludedKeys <;>
        by_cases hmem : k ∈ (p.properties.map Prod.fst) <;>
        (simp [hexcl, hmem, hkt]; try omega)

/-- Claim C6, corrected.  When no explicit column list is given, the
auto-selected columns are exactly `page` followed by the first three
candidate columns meeting the threshold `max 1 (results / 3)` (floor
division, not the claimed ceiling), ordered by descending occurrence count
then ascending name; candidates are the non-excluded property keys plus a
synthetic `tags` column counted once per result with a non-empty tag set.
The index invariant that each page's property keys are unique (HashMap
keys) is assumed. -/
theorem C6_auto_columns (results : List Page)
    (hnodup : ∀ p ∈ results, (p.properties.map Prod.fst).Nodup) :
    detect_common_properties results = autoColumnsSpec results := by
  unfold detect_common_properties autoColumnsSpec
  rw [foldl_countBump_nil]
  unfold mkAcc candKeysInOrder
  have hmap : (dedupFirstStr [] (results.flatMap pageCandKeys)).map
        (fun k => (k, (results.flatMap pageCandKeys).count k))
      = (dedupFirstStr [] (results.flatMap pageCandKeys)).map
        (fun k => (k, countOcc results k)) :=
    List.map_congr_left (fun k _ => by rw [count_flatMap_cand results k hnodup])
  rw [hmap]

/-- Witness for C6 at a concrete result list with unique property keys. -/
theorem C6_witness :
    (∀ p ∈ [mkPage "p1" "" [("k", "v"), ("j", "w")] [] [], mkPage "p2" "" [("k", "u")] [] []],
        (p.properties.map Prod.fst).Nodup)
    ∧ detect_common_properties
          [mkPage "p1" "" [("k", "v"), ("j", "w")] [] [], mkPage "p2" "" [("k", "u")] [] []]
        = autoColumnsSpec
          [mkPage "p1" "" [("k", "v"), ("j", "w")] [] [], mkPage "p2" "" [("k", "u")] [] []] :=
  ⟨by decide,
    C6_auto_columns
      [mkPage "p1" "" [("k", "v"), ("j", "w")] [] [], mkPage "p2" "" [("k", "u")] [] []]
      (by decide)⟩

/-- Counterexample to claim C6 as stated: with four results of which one
carries the property `k`, the claimed threshold is the ceiling of 4/3 = 2,
which would exclude `k`; the code's threshold is `max 1 (4 / 3) = 1`, so
`k` is selected as a column. -/
theorem C6_counterexample :
    detect_common_properties
        [mkPage "p1" "" [("k", "v")] [] [], mkPage "p2" "" [] [] [],
          mkPage "p3" "" [] [] [], mkPage "p4" "" [] [] []]
      = ["page", "k"]
    ∧ countOcc
        [mkPage "p1" "" [("k", "v")] [] [], mkPage "p2" "" [] [] [],
          mkPage "p3" "" [] [] [], mkPage "p4" "" [] [] []] "k" = 1
    ∧ (4 + 3 - 1) / 3 = 2
    ∧ ¬ 2 ≤ 1
    ∧ ["page", "k"] ≠ ["page"] := by
  decide

/-! ## Claim C7 -/

theorem insertProp_ne_nil (props : List (String × String)) (k v : String) :
    insertProp props k v ≠ [] := by
  unfold insertProp
  split
  · rename_i h
    intro hc
    rw [List.map_eq_nil_iff] at hc
    subst hc
    simp at h
  · simp

theorem ppGo_block : ∀ (lines : List String) (props : List (String × String)),
    props ≠ [] →
    ppGo lines props
      = (((lines.takeWhile bPred).filterMap (fun l => propLineMatch (cleanOf l))).foldl
          (fun ps kv => insertProp ps kv.1 kv.2) props,
         (lines.takeWhile bPred).length)
  | [], props, _ => by simp [ppGo]
  | l :: ls, props, hne => by
    cases hm : propLineMatch (cleanOf l) with
    | some kv =>
      have hb : bPred l = true := by simp [bPred, hm]
      simp only [ppGo, hm]
      rw [ppGo_block ls (insertProp props kv.1 kv.2) (insertProp_ne_nil props kv.1 kv.2)]
      rw [List.takeWhile_cons, if_pos hb]
      simp [List.filterMap_cons, hm]
    | none =>
      by_cases hcl : cleanOf l = ""
      · have hb : bPred l = true := by simp [bPred, hcl]
        simp only [ppGo, hm]
        rw [if_pos ⟨hcl, hne⟩]
        rw [ppGo_block ls props hne]
        rw [List.takeWhile_cons, if_pos hb]
        simp [List.filterMap_cons, hm]
      · have hb : bPred l = false := by simp [bPred, hm, hcl]
        simp only [ppGo, hm]
        rw [if_neg (by intro hc; exact hcl hc.1), if_pos hne]
        rw [List.takeWhile_cons, if_neg (by simp [hb])]
        simp

theorem specProps_cons_skip (l : String) (ls : List String) (h : aSkip l = true) :
    specProps (l :: ls) = specProps ls := by
  simp [specProps, List.dropWhile_cons, h]

theorem specDrop_cons_skip (l : String) (ls : List String) (h : aSkip l = true) :
    specDrop (l :: ls) = if specDrop ls = 0 then 0 else specDrop ls + 1 := by
  unfold specDrop
  rw [List.dropWhile_cons, if_pos h, List.takeWhile_cons, if_pos h]
  cases hrest : ls.dropWhile aSkip with
  | nil => simp
  | cons r rs =>
    by_cases hp : (propLineMatch (cleanOf r)).isSome = true
    · have hrun : 1 ≤ ((r :: rs).takeWhile bPred).length := by
        rw [List.takeWhile_cons, if_pos (by simp [bPred]; left; exact hp)]
        simp
      simp only [hp, if_pos, List.length_cons]
      rw [if_neg (by omega)]
      omega
    · simp [hp]

theorem ppGo_spec : ∀ lines : List String, ppGo lines [] = (specProps lines, specDrop lines)
  | [] => by simp [ppGo, specProps, specDrop]
  | l :: ls => by
    cases hm : propLineMatch (cleanOf l) with
    | some kv =>
      have hask : aSkip l = false := by simp [aSkip, hm]
      have hb : bPred l = true := by simp [bPred, hm]
      have hrhs1 : specProps (l :: ls)
          = ((List.takeWhile bPred (l :: ls)).filterMap
              (fun l => propLineMatch (cleanOf l))).foldl
              (fun ps kv => insertProp ps kv.1 kv.2) [] := by
        unfold specProps
        rw [List.dropWhile_cons, if_neg (by simp [hask])]
        simp [hm]
      have hrhs2 : specDrop (l :: ls) = (List.takeWhile bPred (l :: ls)).length := by
        unfold specDrop
        rw [List.dropWhile_cons, if_neg (by simp [hask]),
          List.takeWhile_cons, if_neg (by simp [hask])]
        simp [hm]
      simp only [ppGo, hm]
      rw [ppGo_block ls (insertProp [] kv.1 kv.2) (insertProp_ne_nil [] kv.1 kv.2)]
      rw [hrhs1, hrhs2]
      rw [List.takeWhile_cons, if_pos hb]
      simp [List.filterMap_cons, hm]
    | none =>
      by_cases hask : aSkip l = true
      · have hno1 : ¬ (cleanOf l = "" ∧ ([] : List (String × String)) ≠ []) := by simp
        have hno2 : ¬ (([] : List (String × String)) ≠ []) := by simp
        have hno3 : ¬ (cleanOf l ≠ "" ∧ ¬ strStartsChar (cleanOf l) '-' = true) := by
          have h' := hask
          simp only [aSkip, hm, Option.isNone_none, Bool.true_and] at h'
          rcases Bool.or_eq_true_iff.mp h' with h | h
          · intro hc
            exact hc.1 (by simpa using h)
          · intro hc
            exact hc.2 h
        simp only [ppGo, hm]
        rw [if_neg hno1, if_neg hno2, if_neg hno3]
        rw [ppGo_spec ls]
        rw [specProps_cons_skip l ls hask, specDrop_cons_skip l ls hask]
      · have hask' : aSkip l = false := by simpa using hask
        have hcl : cleanOf l ≠ "" ∧ ¬ strStartsChar (cleanOf l) '-' = true := by
          simp only [aSkip, hm, Option.isNone_none, Bool.true_and] at hask'
          rcases Bool.or_eq_false_iff.mp hask' with ⟨h1, h2⟩
          refine ⟨by simpa using h1, ?_⟩
          simp [h2]
        have hno1 : ¬ (cleanOf l = "" ∧ ([] : List (String × String)) ≠ []) := by simp
        have hno2 : ¬ (([] : List (String × String)) ≠ []) := by simp
        simp only [ppGo, hm]
        rw [if_neg hno1, if_neg hno2, if_pos hcl]
        unfold specProps specDrop
        rw [List.dropWhile_cons, if_neg (by simp [hask'])]
        simp [hm]

/-- Claim C7, corrected.  Property-block parsing skips leading blank lines
and leading lines whose dash-stripped form still begins with a dash (e.g.
indented bullets) instead of terminating on them; if the first remaining
line is a property line, the block is the following run of property/blank
lines (blanks extend, properties collected in order with later duplicates
overwriting), and the body is everything after that run, the skipped
leading lines also being dropped; otherwise no properties are parsed and
the whole content, including the skipped lines, is body.  In particular a
blank line before the first property line does NOT terminate parsing. -/
theorem C7_property_block (content : String) :
    parse_properties content
      = (specProps (rustLines content),
          joinNl ((rustLines content).drop (specDrop (rustLines content)))) := by
  simp only [parse_properties, ppGo_spec]

/-- Counterexample to claim C7 as stated: neither a blank line nor an
indented list item (whose cleaned form still starts with `-`) before any
property line terminates parsing; the `key:: value` line after either
still becomes a property, and the skipped line is consumed out of the
body. -/
theorem C7_counterexample :
    parse_properties "\nk:: v" = ([("k", "v")], "")
    ∧ parse_properties "  - x\nk:: v" = ([("k", "v")], "")
    ∧ ([("k", "v")] : List (String × String)) ≠ [] := by
  decide

/-! ## Claim C10 -/

theorem mem_rustTrim (c : Char) (cur : List Char)
    (h : c ∈ (rustTrim (String.mk cur)).data) : c ∈ cur := by
  unfold rustTrim trimRChars trimLChars at h
  have h0 : c ∈ ((cur.dropWhile Char.isWhitespace).reverse.dropWhile Char.isWhitespace).reverse := h
  rw [List.mem_reverse] at h0
  have h2 : c ∈ (cur.dropWhile Char.isWhitespace).reverse :=
    (List.dropWhile_sublist _).subset h0
  rw [List.mem_reverse] at h2
  exact (List.dropWhile_sublist _).subset h2

theorem flushChecked_neutral (ps : List String) (cur : List Char)
    (h : ∀ c ∈ cur, c ≠ '(' ∧ c ≠ '[') :
    flushChecked ⟨ps, cur, 0, 0⟩ = ⟨ps, [], 0, 0⟩ := by
  have hcond : ¬ (rustTrim (String.mk cur) ≠ ""
      ∧ (strStartsChar (rustTrim (String.mk cur)) '(' = true
        ∨ strStartsChar (rustTrim (String.mk cur)) '[' = true)) := by
    rintro ⟨hne, hst⟩
    have hdat : (rustTrim (String.mk cur)).data ≠ [] := by
      intro hc
      exact hne (String.ext hc)
    cases hd : (rustTrim (String.mk cur)).data with
    | nil => exact hdat hd
    | cons c0 cs0 =>
      have hmem : c0 ∈ cur := mem_rustTrim c0 cur (by rw [hd]; exact List.mem_cons_self c0 cs0)
      rcases hst with hst | hst
      · have hc0 : c0 = '(' := by
          simp [strStartsChar, hd] at hst
          exact hst
        exact (h c0 hmem).1 hc0
      · have hc0 : c0 = '[' := by
          simp [strStartsChar, hd] at hst
          exact hst
        exact (h c0 hmem).2 hc0
  simp only [flushChecked]
  rw [if_neg hcond]

theorem splitStep_neutral_char (ps : List String) (cur : List Char) (c : Char)
    (hc : c ≠ '(' ∧ c ≠ ')' ∧ c ≠ '[' ∧ c ≠ ']')
    (hcur : ∀ d ∈ cur, d ≠ '(' ∧ d ≠ '[') :
    splitStep ⟨ps, cur, 0, 0⟩ c
      = if c = ' ' ∨ c = '\n' ∨ c = '\t' then (⟨ps, [], 0, 0⟩ : SplitSt)
        else ⟨ps, cur ++ [c], 0, 0⟩ := by
  unfold splitStep
  rw [if_neg hc.1, if_neg hc.2.1, if_neg hc.2.2.1, if_neg hc.2.2.2]
  by_cases hws : c = ' ' ∨ c = '\n' ∨ c = '\t'
  · rw [if_pos ⟨hws, rfl, rfl⟩, if_pos hws]
    exact flushChecked_neutral ps cur hcur
  · rw [if_neg (fun hcon => hws hcon.1), if_neg hws]

theorem foldl_splitStep_neutral : ∀ (cs : List Char) (ps : List String) (cur : List Char),
    (∀ c ∈ cs, c ≠ '(' ∧ c ≠ ')' ∧ c ≠ '[' ∧ c ≠ ']') →
    (∀ c ∈ cur, c ≠ '(' ∧ c ≠ '[') →
    ∃ cur', (∀ c ∈ cur', c ≠ '(' ∧ c ≠ '[')
      ∧ List.foldl splitStep ⟨ps, cur, 0, 0⟩ cs = ⟨ps, cur', 0, 0⟩
  | [], ps, cur, _, hcur => ⟨cur, hcur, rfl⟩
  | c :: cs, ps, cur, hcs, hcur => by
    have hc := hcs c (List.mem_cons_self c cs)
    rw [List.foldl_cons, splitStep_neutral_char ps cur c hc hcur]
    by_cases hws : c = ' ' ∨ c = '\n' ∨ c = '\t'
    · rw [if_pos hws]
      exact foldl_splitStep_neutral cs ps []
        (fun d hd => hcs d (List.mem_cons_of_mem c hd)) (by simp)
    · rw [if_neg hws]
      refine foldl_splitStep_neutral cs ps (cur ++ [c])
        (fun d hd => hcs d (List.mem_cons_of_mem c hd)) ?_
      intro d hd
      rcases List.mem_append.mp hd with h | h
      · exact hcur d h
      · simp at h
        subst h
        exact ⟨hc.1, hc.2.2.1⟩

/-- Claim C10, corrected.  A top-level token containing no parentheses and
no square brackets contributes nothing to operand splitting: alone it
parses to no parts, and prepended (whitespace-separated) to any operand
text it leaves the parsed parts, and hence the `and`/`or` results, exactly
unchanged; this covers bare words and double-quoted text operands without
parentheses, such as `"come visit"`.  (A token containing a parenthesized
group, e.g. `foo(bar)` or `"zzz(q)"`, is NOT discarded: see the
counterexample.) -/
theorem C10_operand_discard (t rest : String) (index : List Page) (fuel : Nat)
    (ht : ∀ c ∈ t.data, c ≠ '(' ∧ c ≠ ')' ∧ c ≠ '[' ∧ c ≠ ']') :
    parse_query_parts t = []
    ∧ parse_query_parts (t ++ " " ++ rest) = parse_query_parts rest
    ∧ execute_and fuel (t ++ " " ++ rest) index = execute_and fuel rest index
    ∧ execute_or fuel (t ++ " " ++ rest) index = execute_or fuel rest index := by
  have hpq1 : parse_query_parts t = [] := by
    unfold parse_query_parts
    obtain ⟨cur', hcur', heq⟩ := foldl_splitStep_neutral t.data [] []
      ht (by simp)
    rw [heq, flushChecked_neutral [] cur' hcur']
  have hdata : (t ++ " " ++ rest).data = t.data ++ ' ' :: rest.data := by
    rw [String.data_append, String.data_append]
    simp
  have hlast : List.foldl splitStep (⟨[], [], 0, 0⟩ : SplitSt) (t.data ++ [' '])
      = ⟨[], [], 0, 0⟩ := by
    rw [List.foldl_append]
    obtain ⟨cur2, hcur2, heq2⟩ := foldl_splitStep_neutral t.data [] [] ht (by simp)
    rw [heq2, List.foldl_cons, splitStep_neutral_char [] cur2 ' '
      ⟨by decide, by decide, by decide, by decide⟩ hcur2]
    rw [if_pos (Or.inl rfl)]
    rfl
  have hpq2 : parse_query_parts (t ++ " " ++ rest) = parse_query_parts rest := by
    unfold parse_query_parts
    rw [hdata]
    have hsplit : (t.data ++ ' ' :: rest.data) = (t.data ++ [' ']) ++ rest.data := by simp
    rw [hsplit, List.foldl_append, hlast]
  refine ⟨hpq1, hpq2, ?_, ?_⟩
  · unfold execute_and execute_and_with
    rw [hpq2]
  · unfold execute_or execute_or_with
    rw [hpq2]

theorem C10_witness :
    parse_query_parts "\"come visit\"" = []
    ∧ parse_query_parts ("\"come visit\"" ++ " " ++ "(page [[a]])")
        = parse_query_parts "(page [[a]])"
    ∧ execute_and 2 ("\"come visit\"" ++ " " ++ "(page [[a]])") [mkPage "a" "x" [] [] []]
        = execute_and 2 "(page [[a]])" [mkPage "a" "x" [] [] []]
    ∧ execute_or 2 ("\"come visit\"" ++ " " ++ "(page [[a]])") [mkPage "a" "x" [] [] []]
        = execute_or 2 "(page [[a]])" [mkPage "a" "x" [] [] []] :=
  C10_operand_discard "\"come visit\"" "(page [[a]])" [mkPage "a" "x" [] [] []] 2 (by decide)

theorem C10_counterexample :
    parse_query_parts "(page [[p]]) \"zzz(q)\"" = ["(page [[p]])", "\"zzz(q)"]
    ∧ strStartsChar "\"zzz(q)" '(' = false
    ∧ strStartsChar "\"zzz(q)" '[' = false
    ∧ execute_and 2 "(page [[p]]) \"zzz(q)\"" [mkPage "p" "hello" [] [] []] = []
    ∧ execute_and 2 "(page [[p]])" [mkPage "p" "hello" [] [] []]
        = [mkPage "p" "hello" [] [] []] := by decide

/-! ## Claim C3 -/

theorem execute_and_with_def (eval : String → List Page → List Page) (inner : String)
    (idx : List Page) :
    execute_and_with eval inner idx
      = match parse_query_parts inner with
        | [] => []
        | first :: restParts =>
          restParts.foldl
            (fun r e => r.filter (fun q => ((eval e idx).map Page.name).contains q.name))
            (eval first idx) := rfl

/-- One step of the `execute_or` fold over a single operand result. -/
def orStep (st : List String × List Page) (page : Page) : List String × List Page :=
  if st.1.contains page.name then st else (page.name :: st.1, st.2 ++ [page])

theorem execute_or_with_def (eval : String → List Page → List Page) (inner : String)
    (idx : List Page) :
    execute_or_with eval inner idx
      = ((parse_query_parts inner).foldl
          (fun st part => (eval part idx).foldl orStep st) ([], [])).2 := rfl

theorem execute_not_with_def (eval : String → List Page → List Page) (inner : String)
    (idx : List Page) :
    execute_not_with eval inner idx
      = idx.filter (fun p => ¬ ((eval inner idx).map Page.name).contains p.name) := rfl

/-- The seen-name accumulator of the `execute_or` fold after a list of pages. -/
def seenAfter (seen : List String) : List Page → List String
  | [] => seen
  | x :: xs => if seen.contains x.name then seenAfter seen xs else seenAfter (x.name :: seen) xs

theorem foldl_orStep : ∀ (pages : List Page) (seen : List String) (out : List Page),
    List.foldl orStep (seen, out) pages
      = (seenAfter seen pages, out ++ nameDedupGo seen pages)
  | [], seen, out => by simp [seenAfter, nameDedupGo]
  | x :: xs, seen, out => by
    rw [List.foldl_cons]
    by_cases h : seen.contains x.name = true
    · have hmem : x.name ∈ seen := by simpa using h
      have hstep : orStep (seen, out) x = (seen, out) := by simp [orStep, hmem]
      rw [hstep, foldl_orStep xs seen out]
      simp [seenAfter, nameDedupGo, hmem]
    · have hmem : x.name ∉ seen := by simpa using h
      have hstep : orStep (seen, out) x = (x.name :: seen, out ++ [x]) := by
        simp [orStep, hmem]
      rw [hstep, foldl_orStep xs (x.name :: seen) (out ++ [x])]
      simp [seenAfter, nameDedupGo, hmem, List.append_assoc]

theorem seenAfter_append : ∀ (xs ys : List Page) (seen : List String),
    seenAfter seen (xs ++ ys) = seenAfter (seenAfter seen xs) ys
  | [], ys, seen => by simp [seenAfter]
  | x :: xs, ys, seen => by
    simp only [List.cons_append, seenAfter]
    by_cases h : seen.contains x.name = true
    · simp only [if_pos h]
      exact seenAfter_append xs ys seen
    · simp only [if_neg h]
      exact seenAfter_append xs ys (x.name :: seen)

theorem nameDedupGo_append : ∀ (xs ys : List Page) (seen : List String),
    nameDedupGo seen (xs ++ ys) = nameDedupGo seen xs ++ nameDedupGo (seenAfter seen xs) ys
  | [], ys, seen => by simp [nameDedupGo, seenAfter]
  | x :: xs, ys, seen => by
    simp only [List.cons_append, nameDedupGo, seenAfter]
    by_cases h : seen.contains x.name = true
    · simp only [if_pos h]
      exact nameDedupGo_append xs ys seen
    · simp only [if_neg h]
      rw [List.cons_append]
      exact congrArg (x :: ·) (nameDedupGo_append xs ys (x.name :: seen))

theorem foldl_orOuter (eval : String → List Page → List Page) (idx : List Page) :
    ∀ (parts : List String) (seen : List String) (out : List Page),
    parts.foldl (fun st part => (eval part idx).foldl orStep st) (seen, out)
      = (seenAfter seen (parts.flatMap (fun e => eval e idx)),
         out ++ nameDedupGo seen (parts.flatMap (fun e => eval e idx)))
  | [], seen, out => by simp [seenAfter, nameDedupGo]
  | part :: rest, seen, out => by
    simp only [List.foldl_cons]
    rw [foldl_orStep (eval part idx) seen out,
      foldl_orOuter eval idx rest (seenAfter seen (eval part idx))
        (out ++ nameDedupGo seen (eval part idx)),
      List.flatMap_cons, seenAfter_append, nameDedupGo_append]
    simp [List.append_assoc]

theorem execute_or_with_eq (eval : String → List Page → List Page) (inner : String)
    (idx : List Page) :
    execute_or_with eval inner idx
      = nameDedupGo [] ((parse_query_parts inner).flatMap (fun e => eval e idx)) := by
  rw [execute_or_with_def, foldl_orOuter eval idx (parse_query_parts inner) [] []]
  simp

theorem mem_nameDedupGo : ∀ (seen : List String) (l : List Page) (p : Page),
    p ∈ nameDedupGo seen l → p ∈ l
  | _, [], p => by simp [nameDedupGo]
  | seen, x :: xs, p => by
    simp only [nameDedupGo]
    by_cases h : seen.contains x.name = true
    · rw [if_pos h]
      intro hp
      exact List.mem_cons_of_mem x (mem_nameDedupGo seen xs p hp)
    · rw [if_neg h]
      intro hp
      rcases List.mem_cons.mp hp with h1 | h1
      · exact h1 ▸ List.mem_cons_self x xs
      · exact List.mem_cons_of_mem x (mem_nameDedupGo (x.name :: seen) xs p h1)

theorem mem_foldl_filter (g : String → Page → Bool) : ∀ (fs : List String) (init : List Page)
    (p : Page), p ∈ fs.foldl (fun r e => r.filter (g e)) init → p ∈ init
  | [], _, _ => id
  | e :: fs, init, p => fun hp =>
    (List.mem_filter.mp (mem_foldl_filter g fs (init.filter (g e)) p hp)).1

theorem foldl_filter_all (g : String → Page → Bool) : ∀ (fs : List String) (init : List Page),
    fs.foldl (fun r e => r.filter (g e)) init
      = init.filter (fun p => fs.all (fun e => g e p))
  | [], init => by simp
  | e :: fs, init => by
    simp only [List.foldl_cons]
    rw [foldl_filter_all g fs (init.filter (g e)), List.filter_filter]
    apply List.filter_congr
    intro a _
    simp [List.all_cons, Bool.and_comm]

theorem execute_and_with_parts (eval : String → List Page → List Page) (inner : String)
    (idx : List Page) (E1 : String) (Es : List String)
    (hp : parse_query_parts inner = E1 :: Es) :
    execute_and_with eval inner idx
      = (eval E1 idx).filter
          (fun p => Es.all (fun e => ((eval e idx).map Page.name).contains p.name)) := by
  rw [execute_and_with_def]
  simp only [hp]
  exact foldl_filter_all (fun e q => ((eval e idx).map Page.name).contains q.name) Es (eval E1 idx)

theorem tryTask_mem (e : String) (idx r : List Page) (h : tryTask e idx = some r) :
    ∀ p ∈ r, p ∈ idx := by
  rcases Option.map_eq_some'.mp h with ⟨v, _, hr⟩
  intro p hp
  rw [← hr] at hp
  exact (List.mem_filter.mp hp).1

theorem tryPriority_mem (e : String) (idx r : List Page) (h : tryPriority e idx = some r) :
    ∀ p ∈ r, p ∈ idx := by
  rcases Option.map_eq_some'.mp h with ⟨v, _, hr⟩
  intro p hp
  rw [← hr] at hp
  exact (List.mem_filter.mp hp).1

theorem tryBetween_mem (e : String) (idx r : List Page) (h : tryBetween e idx = some r) :
    ∀ p ∈ r, p ∈ idx := by
  unfold tryBetween at h
  rcases Option.bind_eq_some.mp h with ⟨caps, _, h2⟩
  cases hd1 : parse_date caps.1 <;> cases hd2 : parse_date caps.2 <;>
    simp only [hd1, hd2] at h2
  · exact Option.noConfusion h2
  · exact Option.noConfusion h2
  · exact Option.noConfusion h2
  · injection h2 with h3
    intro p hp
    rw [← h3] at hp
    exact (List.mem_filter.mp hp).1

theorem tryAllPageTags_mem (e : String) (idx r : List Page)
    (h : tryAllPageTags e idx = some r) : ∀ p ∈ r, p ∈ idx := by
  unfold tryAllPageTags at h
  by_cases hc : matchAllPageTags e = true
  · rw [if_pos hc] at h
    injection h with h3
    intro p hp
    rw [← h3] at hp
    exact (List.mem_filter.mp hp).1
  · rw [if_neg hc] at h
    exact Option.noConfusion h

theorem tryPage_mem (e : String) (idx r : List Page) (h : tryPage e idx = some r) :
    ∀ p ∈ r, p ∈ idx := by
  rcases Option.map_eq_some'.mp h with ⟨v, _, hr⟩
  intro p hp
  rw [← hr] at hp
  exact (List.mem_filter.mp hp).1

theorem tryPageTags_mem (e : String) (idx r : List Page) (h : tryPageTags e idx = some r) :
    ∀ p ∈ r, p ∈ idx := by
  rcases Option.map_eq_some'.mp h with ⟨v, _, hr⟩
  intro p hp
  rw [← hr] at hp
  exact (List.mem_filter.mp hp).1

theorem tryNamespace_mem (e : String) (idx r : List Page) (h : tryNamespace e idx = some r) :
    ∀ p ∈ r, p ∈ idx := by
  rcases Option.map_eq_some'.mp h with ⟨v, _, hr⟩
  intro p hp
  rw [← hr] at hp
  exact (List.mem_filter.mp hp).1

theorem tryProperty_mem (e : String) (idx r : List Page) (h : tryProperty e idx = some r) :
    ∀ p ∈ r, p ∈ idx := by
  rcases Option.map_eq_some'.mp h with ⟨v, _, hr⟩
  intro p hp
  rw [← hr] at hp
  exact (List.mem_filter.mp hp).1

theorem tryPageRef_mem (e : String) (idx r : List Page) (h : tryPageRef e idx = some r) :
    ∀ p ∈ r, p ∈ idx := by
  rcases Option.map_eq_some'.mp h with ⟨v, _, hr⟩
  intro p hp
  rw [← hr] at hp
  exact (List.mem_filter.mp hp).1

theorem tryTextSearch_mem (e : String) (idx r : List Page) (h : tryTextSearch e idx = some r) :
    ∀ p ∈ r, p ∈ idx := by
  rcases Option.map_eq_some'.mp h with ⟨v, _, hr⟩
  intro p hp
  rw [← hr] at hp
  exact (List.mem_filter.mp hp).1

theorem tryPlainText_mem (e : String) (idx r : List Page) (h : tryPlainText e idx = some r) :
    ∀ p ∈ r, p ∈ idx := by
  unfold tryPlainText at h
  by_cases h1 : ¬ strStartsChar e '(' = true ∧ ¬ strStartsChar e '[' = true
  · rw [if_pos h1] at h
    have h' : (if byteLen (removeChars (lowerStr e) ['"', '\'']) > 2
        then some (idx.filter fun p =>
          containsSub (lowerStr p.content) (removeChars (lowerStr e) ['"', '\'']))
        else none) = some r := h
    by_cases h2 : byteLen (removeChars (lowerStr e) ['"', '\'']) > 2
    · rw [if_pos h2] at h'
      injection h' with h3
      intro p hp
      rw [← h3] at hp
      exact (List.mem_filter.mp hp).1
    · rw [if_neg h2] at h'
      exact Option.noConfusion h'
  · rw [if_neg h1] at h
    exact Option.noConfusion h

theorem execute_prim_subset (e : String) (idx : List Page) (p : Page)
    (hp : p ∈ execute_prim e idx) : p ∈ idx := by
  unfold execute_prim at hp
  cases h1 : tryTask e idx with
  | some r => simp only [h1] at hp; exact tryTask_mem e idx r h1 p hp
  | none =>
    simp only [h1] at hp
    cases h2 : tryPriority e idx with
    | some r => simp only [h2] at hp; exact tryPriority_mem e idx r h2 p hp
    | none =>
      simp only [h2] at hp
      cases h3 : tryBetween e idx with
      | some r => simp only [h3] at hp; exact tryBetween_mem e idx r h3 p hp
      | none =>
        simp only [h3] at hp
        cases h4 : tryAllPageTags e idx with
        | some r => simp only [h4] at hp; exact tryAllPageTags_mem e idx r h4 p hp
        | none =>
          simp only [h4] at hp
          cases h5 : tryPage e idx with
          | some r => simp only [h5] at hp; exact tryPage_mem e idx r h5 p hp
          | none =>
            simp only [h5] at hp
            cases h6 : tryPageTags e idx with
            | some r => simp only [h6] at hp; exact tryPageTags_mem e idx r h6 p hp
            | none =>
              simp only [h6] at hp
              cases h7 : tryNamespace e idx with
              | some r => simp only [h7] at hp; exact tryNamespace_mem e idx r h7 p hp
              | none =>
                simp only [h7] at hp
                cases h8 : tryProperty e idx with
                | some r => simp only [h8] at hp; exact tryProperty_mem e idx r h8 p hp
                | none =>
                  simp only [h8] at hp
                  cases h9 : tryPageRef e idx with
                  | some r => simp only [h9] at hp; exact tryPageRef_mem e idx r h9 p hp
                  | none =>
                    simp only [h9] at hp
                    cases h10 : tryTextSearch e idx with
                    | some r => simp only [h10] at hp; exact tryTextSearch_mem e idx r h10 p hp
                    | none =>
                      simp only [h10] at hp
                      cases h11 : tryPlainText e idx with
                      | some r => simp only [h11] at hp; exact tryPlainText_mem e idx r h11 p hp
                      | none =>
                        simp only [h11] at hp
                        exact absurd hp (List.not_mem_nil p)

theorem execute_expr_subset : ∀ (fuel : Nat) (e : String) (idx : List Page) (p : Page),
    p ∈ execute_expr fuel e idx → p ∈ idx
  | 0, e, idx, p => by
    intro hp
    simp [execute_expr] at hp
  | fuel + 1, e, idx, p => by
    intro hp
    simp only [execute_expr] at hp
    cases ha : extract_inner (rustTrim e) "and" with
    | some inner =>
      simp only [ha] at hp
      rw [execute_and_with_def] at hp
      cases hpq : parse_query_parts inner with
      | nil => simp [hpq] at hp
      | cons first rest =>
        simp only [hpq] at hp
        exact execute_expr_subset fuel first idx p (mem_foldl_filter _ rest _ p hp)
    | none =>
      simp only [ha] at hp
      cases ho : extract_inner (rustTrim e) "or" with
      | some inner =>
        simp only [ho] at hp
        rw [execute_or_with_eq] at hp
        rcases List.mem_flatMap.mp (mem_nameDedupGo [] _ p hp) with ⟨part, _, hpe⟩
        exact execute_expr_subset fuel part idx p hpe
      | none =>
        simp only [ho] at hp
        cases hn : extract_inner (rustTrim e) "not" with
        | some inner =>
          simp only [hn] at hp
          rw [execute_not_with_def] at hp
          exact (List.mem_filter.mp hp).1
        | none =>
          simp only [hn] at hp
          exact execute_prim_subset (rustTrim e) idx p hp

theorem contains_name_eq (idx sub : List Page) (p : Page) (hnd : nodupNames idx)
    (hsub : ∀ q ∈ sub, q ∈ idx) (hp : p ∈ idx) :
    (sub.map Page.name).contains p.name = decide (p ∈ sub) := by
  have key : p.name ∈ sub.map Page.name ↔ p ∈ sub := by
    constructor
    · intro hn
      rcases List.mem_map.mp hn with ⟨q, hq, hqn⟩
      have hqp : q = p := List.inj_on_of_nodup_map hnd (hsub q hq) hp hqn
      exact hqp ▸ hq
    · intro hm
      exact List.mem_map.mpr ⟨p, hm, rfl⟩
  by_cases hmem : p ∈ sub
  · simp [key, hmem]
  · simp [key, hmem]

theorem all_congr_mem (l : List String) (f g : String → Bool)
    (h : ∀ a ∈ l, f a = g a) : l.all f = l.all g := by
  induction l with
  | nil => rfl
  | cons a l ih =>
    rw [List.all_cons, List.all_cons, h a (List.mem_cons_self a l),
      ih (fun b hb => h b (List.mem_cons_of_mem a hb))]

theorem nameDedup_eq_dedupFirst (idx : List Page) (hnd : nodupNames idx) :
    ∀ (l seenP : List Page), (∀ q ∈ l, q ∈ idx) → (∀ q ∈ seenP, q ∈ idx) →
      nameDedupGo (seenP.map Page.name) l = dedupFirst seenP l
  | [], _, _, _ => by simp [nameDedupGo, dedupFirst]
  | x :: xs, seenP, hl, hs => by
    have hx : x ∈ idx := hl x (List.mem_cons_self x xs)
    have hcn : (seenP.map Page.name).contains x.name = decide (x ∈ seenP) :=
      contains_name_eq idx seenP x hnd hs hx
    simp only [nameDedupGo, dedupFirst, hcn]
    by_cases hmem : x ∈ seenP
    · rw [if_pos (by simp [hmem]), if_pos hmem]
      exact nameDedup_eq_dedupFirst idx hnd xs seenP
        (fun q hq => hl q (List.mem_cons_of_mem x hq)) hs
    · rw [if_neg (by simp [hmem]), if_neg hmem]
      congr 1
      exact nameDedup_eq_dedupFirst idx hnd xs (x :: seenP)
        (fun q hq => hl q (List.mem_cons_of_mem x hq))
        (fun q hq => by
          rcases List.mem_cons.mp hq with h | h
          · exact h ▸ hx
          · exact hs q h)

/-- Claim C3, corrected.  For the operands the splitter actually produces
(`parse_query_parts inner = E1 :: Es`; quoted and bare tokens are dropped,
see C10) and an index whose page names are pairwise distinct, the Boolean
combinators have the claimed set semantics: `(and …)` returns exactly the
pages of `E1`'s result, in `E1`'s order, that also satisfy every later
operand; `(or …)` returns the union in first-seen order with duplicates
removed; `(not E)` returns exactly the index pages not satisfying `E`, in
index order.  (The code compares pages by name, so without the
distinct-names hypothesis deduplication is by name, not by identity: see
the counterexample.) -/
theorem C3_boolean_ops (index : List Page) (fuel : Nat) (inner E1 E : String)
    (Es : List String) (hnd : nodupNames index)
    (hp : parse_query_parts inner = E1 :: Es) :
    execute_and fuel inner index
      = (execute_expr fuel E1 index).filter
          (fun p => Es.all (fun e => decide (p ∈ execute_expr fuel e index)))
    ∧ execute_or fuel inner index
      = dedupFirst [] ((E1 :: Es).flatMap (fun e => execute_expr fuel e index))
    ∧ execute_not fuel E index
      = index.filter (fun p => decide (p ∉ execute_expr fuel E index)) := by
  refine ⟨?_, ?_, ?_⟩
  · unfold execute_and
    rw [execute_and_with_parts (execute_expr fuel) inner index E1 Es hp]
    apply List.filter_congr
    intro q hq
    have hqidx : q ∈ index := execute_expr_subset fuel E1 index q hq
    apply all_congr_mem
    intro s _
    exact contains_name_eq index (execute_expr fuel s index) q hnd
      (fun x hx => execute_expr_subset fuel s index x hx) hqidx
  · unfold execute_or
    rw [execute_or_with_eq, hp]
    have hflat : ∀ q ∈ (E1 :: Es).flatMap (fun e => execute_expr fuel e index), q ∈ index := by
      intro q hq
      rcases List.mem_flatMap.mp hq with ⟨s, _, hqs⟩
      exact execute_expr_subset fuel s index q hqs
    exact nameDedup_eq_dedupFirst index hnd
      ((E1 :: Es).flatMap (fun e => execute_expr fuel e index)) [] hflat
      (fun q hq => absurd hq (List.not_mem_nil q))
  · unfold execute_not
    rw [execute_not_with_def]
    apply List.filter_congr
    intro q hq
    have hc := contains_name_eq index (execute_expr fuel E index) q hnd
      (fun x hx => execute_expr_subset fuel E index x hx) hq
    simp only [hc]
    by_cases hm : q ∈ execute_expr fuel E index
    · simp [hm]
    · simp [hm]

/-- Pages for the C3 witness. -/
def pgA : Page := mkPage "a" "" [] [] []

def pgB : Page := mkPage "b" "" [] [] []

theorem C3_witness :
    nodupNames [pgA, pgB]
    ∧ parse_query_parts "(page [[a]]) (page [[b]])" = ["(page [[a]])", "(page [[b]])"]
    ∧ (execute_and 3 "(page [[a]]) (page [[b]])" [pgA, pgB]
        = (execute_expr 3 "(page [[a]])" [pgA, pgB]).filter
            (fun p => (["(page [[b]])"] : List String).all
              (fun e => decide (p ∈ execute_expr 3 e [pgA, pgB])))
      ∧ execute_or 3 "(page [[a]]) (page [[b]])" [pgA, pgB]
        = dedupFirst [] (("(page [[a]])" :: ["(page [[b]])"]).flatMap
            (fun e => execute_expr 3 e [pgA, pgB]))
      ∧ execute_not 3 "(page [[a]])" [pgA, pgB]
        = [pgA, pgB].filter (fun p => decide (p ∉ execute_expr 3 "(page [[a]])" [pgA, pgB]))) :=
  ⟨by decide, by decide,
    C3_boolean_ops [pgA, pgB] 3 "(page [[a]]) (page [[b]])" "(page [[a]])" "(page [[a]])"
      ["(page [[b]])"] (by decide) (by decide)⟩

theorem C3_counterexample :
    execute_and 2 "(page [[p]]) \"zzz\"" [mkPage "p" "hello" [] [] []]
      = [mkPage "p" "hello" [] [] []]
    ∧ execute_expr 2 "\"zzz\"" [mkPage "p" "hello" [] [] []] = []
    ∧ execute_or 2 "(page [[p]])" [mkPage "p" "aa" [] [] [], mkPage "p" "bb" [] [] []]
      = [mkPage "p" "aa" [] [] []]
    ∧ dedupFirst []
        (execute_expr 2 "(page [[p]])" [mkPage "p" "aa" [] [] [], mkPage "p" "bb" [] [] []])
      = [mkPage "p" "aa" [] [] [], mkPage "p" "bb" [] [] []] := by decide

end PQ
